import Mathlib

/-!
# RDMTL: Merkle-tree ladder over DNS record sets

A shallow embedding of `src/RDMTL.c` and the properties of its Merkle tree
builder, its proof generator and its query step.

Modelling conventions.

* A 32-byte digest is a value of an arbitrary type `D`.  The two OpenSSL based
  primitives `sha256_hash` and `hash_pair` are parameters of the development:
  nothing is assumed about them.
* A level buffer `tree->levels[k]` of `level_sizes[k]` digests is a `List D`;
  the entry `tree->level_sizes[k]` is the length of that list (the C code keeps
  the two in step, lines 91-92 and 100-102).
* A C array read is a list lookup `xs[i]?`.  Every function that reads an array
  returns an `Option`: `none` means that the execution has read outside an
  array, `some` is a normal return.
* Sizes and loop counters that are never negative are `Nat`; the `leaf_index`
  argument of `generate_merkle_proof` is an `Int`, with the truncating division
  and remainder of C.  Sizes are taken to fit the C type `int`.
* The `prev_roots` table is a function from the record-set position to the
  digest stored in that 32-byte slot.
-/

namespace RDMTL

/-! ## Data model -/

/-- An individual resource record (`RRRecord`). -/
structure RRRecord where
  data : String
deriving DecidableEq, Repr

/-- A record set (`RRSet`): the field `count` of the C struct is the length of
`records`. -/
structure RRSet where
  type : String
  records : List RRRecord
deriving DecidableEq, Repr

/-- The field `count` of an `RRSet`. -/
def RRSet.count (rrset : RRSet) : Nat := rrset.records.length

/-- All levels of a Merkle tree (`MerkleTree`); `level_sizes[k]` is the length
of `levels[k]`. -/
structure MerkleTree (D : Type) where
  levels : List (List D)
  levels_count : Nat
deriving DecidableEq, Repr

/-- The read `tree->level_sizes[level]`. -/
def MerkleTree.level_sizes {D : Type} (tree : MerkleTree D) (level : Nat) : Option Nat :=
  (tree.levels[level]?).map List.length

/-- A value stored in the `proof_out` array: `NULL`, or the address
`tree->levels[level] + index * 32`. -/
inductive Ptr where
  | null : Ptr
  | node (level : Nat) (index : Int) : Ptr
deriving DecidableEq, Repr

/-- Reading the 32 bytes at `tree->levels[level] + index * 32`. -/
def MerkleTree.node_at {D : Type} (tree : MerkleTree D) (level : Nat) (index : Int) : Option D :=
  if 0 ≤ index then (tree.levels[level]?).bind (fun lvl => lvl[index.toNat]?) else none

/-- Reading through a non-null pointer of the proof array. -/
def MerkleTree.load {D : Type} (tree : MerkleTree D) : Ptr → Option D
  | Ptr.null => none
  | Ptr.node level index => tree.node_at level index

/-! ## The tree builder -/

/-- The loop `for (int i = 0; i < n; i++) out[i] = f(i)` filling a fresh buffer
of `n` digests; it fails as soon as one `f i` reads out of range. -/
def for_fill {D : Type} (f : Nat → Option D) : Nat → Option (List D)
  | 0 => some []
  | n + 1 => (for_fill f n).bind (fun out => (f n).map (fun x => out ++ [x]))

/-- The loop `while (n > 1) { n = (n + 1) / 2; max_levels++; }` (lines 80-83);
the result is the final value of `max_levels`. -/
def halving_loop (n max_levels : Nat) : Nat :=
  if 1 < n then halving_loop ((n + 1) / 2) (max_levels + 1) else max_levels
termination_by n
decreasing_by omega

/-- The level count computed at lines 78-84. -/
def max_levels (count : Nat) : Nat := halving_loop count 0 + 1

section Builder

variable {D : Type} (sha256_hash : String → D) (hash_pair : D → D → D)

/-- Body of the leaf loop (line 94): the digest of record `i`. -/
def leaf_node (records : List RRRecord) (i : Nat) : Option D :=
  (records[i]?).map (fun r => sha256_hash r.data)

/-- Body of the inner loop (lines 105-114): node `i` of the level above `prev`. -/
def build_node (prev : List D) (i : Nat) : Option D :=
  let prev_count := prev.length
  let left_idx := 2 * i
  let right_idx := 2 * i + 1
  if right_idx < prev_count then
    (prev[left_idx]?).bind (fun left => (prev[right_idx]?).map (fun right => hash_pair left right))
  else
    prev[left_idx]?

/-- The loop `for (int level = 1; level < max_levels; level++)` (lines 98-116),
as a function of the number `todo` of iterations still to run, the loop
counter and the levels built so far. -/
def build_upper_levels : Nat → Nat → List (List D) → Option (List (List D))
  | 0, _, levels => some levels
  | todo + 1, level, levels =>
    (levels[level - 1]?).bind (fun prev =>
      let prev_count := prev.length
      let curr_count := (prev_count + 1) / 2
      (for_fill (build_node hash_pair prev) curr_count).bind (fun curr =>
        build_upper_levels todo (level + 1) (levels ++ [curr])))

/-- The function `build_merkle_tree_levels` (lines 68-117). -/
def build_merkle_tree_levels (rrset : RRSet) : Option (MerkleTree D) :=
  let count := rrset.count
  if count = 0 then
    some ⟨[], 0⟩
  else
    let max_levels := max_levels count
    (for_fill (leaf_node sha256_hash rrset.records) count).bind (fun level0 =>
      (build_upper_levels hash_pair (max_levels - 1) 1 [level0]).map (fun levels =>
        ⟨levels, max_levels⟩))

end Builder

/-! ## The proof generator -/

/-- The loop of `generate_merkle_proof` (lines 122-130), as a function of the
number `todo` of iterations still to run, the loop counter, the running
`index` and the contents of `proof_out`. -/
def proof_loop {D : Type} (tree : MerkleTree D) :
    Nat → Nat → Int → (Nat → Ptr) → Option (Nat → Ptr)
  | 0, _, _, proof_out => some proof_out
  | todo + 1, level, index, proof_out =>
    let sibling_index := if Int.tmod index 2 = 0 then index + 1 else index - 1
    (tree.level_sizes level).bind (fun size =>
      let proof_out1 :=
        if sibling_index ≥ (size : Int) then Function.update proof_out level Ptr.null
        else Function.update proof_out level (Ptr.node level sibling_index)
      proof_loop tree todo (level + 1) (Int.tdiv index 2) proof_out1)

/-- The function `generate_merkle_proof` (lines 120-131): the contents of the
caller's array `proof_out` after the call. -/
def generate_merkle_proof {D : Type} (tree : MerkleTree D) (leaf_index : Int)
    (proof_out : Nat → Ptr) : Option (Nat → Ptr) :=
  proof_loop tree (tree.levels_count - 1) 0 leaf_index proof_out

/-! ## The query step -/

/-- The lookup loop of `query_rrset` (lines 140-146), started at position `i`:
the first position whose type equals `query_type`, if any. -/
def find_rrset : List RRSet → String → Nat → Option Nat
  | [], _, _ => none
  | rrset :: rest, query_type, i =>
    if rrset.type = query_type then some i else find_rrset rest query_type (i + 1)

/-- The two buffers `query_rrset` updates. -/
structure QueryState (D : Type) where
  prev_roots : Nat → D
  latest_root : D

/-- What one call of `query_rrset` reports. -/
inductive QueryOutput (D : Type) where
  | not_found : QueryOutput D
  | empty_rrset : QueryOutput D
  | answer (current_root mtl_signature latest_root : D) (proof : Option (List (Option D))) :
      QueryOutput D
deriving DecidableEq, Repr

section Query

variable {D : Type} (sha256_hash : String → D) (hash_pair : D → D → D)

/-- The function `compute_mtl_signature` (lines 134-136). -/
def compute_mtl_signature (current_root prev_root : D) : D :=
  hash_pair current_root prev_root

/-- The display loop of lines 195-203: entry `i` is shown as a digest when
`proof[i]` is not `NULL`. -/
def show_proof (tree : MerkleTree D) (proof : Nat → Ptr) : Nat → Option (List (Option D))
  | 0 => some []
  | n + 1 =>
    (show_proof tree proof n).bind (fun out =>
      match proof n with
      | Ptr.null => some (out ++ [none])
      | Ptr.node level index =>
        (tree.node_at level index).map (fun d => out ++ [some d]))

/-- The function `query_rrset` (lines 139-207); `stack` is the content of the
local array `proof` before it is filled. -/
def query_rrset (rrsets : List RRSet) (query_type : String) (st : QueryState D)
    (stack : Nat → Ptr) : Option (QueryOutput D × QueryState D) :=
  match find_rrset rrsets query_type 0 with
  | none => some (QueryOutput.not_found, st)
  | some rrset_index =>
    (rrsets[rrset_index]?).bind (fun rrset =>
      (build_merkle_tree_levels sha256_hash hash_pair rrset).bind (fun tree =>
        if tree.levels_count = 0 then
          some (QueryOutput.empty_rrset, st)
        else
          (tree.node_at (tree.levels_count - 1) 0).bind (fun current_root =>
            let mtl_signature :=
              compute_mtl_signature hash_pair current_root (st.prev_roots rrset_index)
            let prev_roots := Function.update st.prev_roots rrset_index current_root
            let latest_root := current_root
            let shown :=
              if rrset.count > 0 then
                (generate_merkle_proof tree 0 stack).bind (fun proof =>
                  (show_proof tree proof (tree.levels_count - 1)).map some)
              else some none
            shown.map (fun proof =>
              (QueryOutput.answer current_root mtl_signature latest_root proof,
                ⟨prev_roots, latest_root⟩)))))

end Query

/-! ## A symbolic digest type for concrete evaluations -/

/-- Digests as terms: no two different computations collide. -/
inductive Sym where
  | zero : Sym
  | leaf (s : String) : Sym
  | pair (l r : Sym) : Sym
deriving DecidableEq, Repr

/-! ## The record sets of `main` -/

/-- The array `a_records` of `main` (lines 211-217). -/
def a_records : List RRRecord :=
  [⟨"aiori.in. 3600 IN A 192.0.2.1"⟩, ⟨"aiori.in. 3600 IN A 192.0.2.2"⟩,
   ⟨"aiori.in. 3600 IN A 192.0.2.3"⟩, ⟨"aiori.in. 3600 IN A 192.0.2.4"⟩,
   ⟨"aiori.in. 3600 IN A 192.0.2.5"⟩]

/-- The array `aaaa_records` of `main` (lines 219-223). -/
def aaaa_records : List RRRecord :=
  [⟨"aiori.in. 3600 IN AAAA 2001:db8::1"⟩, ⟨"aiori.in. 3600 IN AAAA 2001:db8::2"⟩,
   ⟨"aiori.in. 3600 IN AAAA 2001:db8::3"⟩]

/-- The array `txt_records` of `main` (lines 225-229). -/
def txt_records : List RRRecord :=
  [⟨"aiori.in. 3600 IN TXT \"v=spf1 a mx -all\""⟩,
   ⟨"aiori.in. 3600 IN TXT \"description=example site\""⟩,
   ⟨"aiori.in 3600 IN TXT \"contact=email@example.com\""⟩]

/-- The array `rrsets` of `main` (lines 232-236). -/
def rrsets : List RRSet :=
  [⟨"A", a_records⟩, ⟨"AAAA", aaaa_records⟩, ⟨"TXT", txt_records⟩]

/-- The record set `A` of `main`. -/
def rrset_a : RRSet := ⟨"A", a_records⟩

/-- The record set `AAAA` of `main`. -/
def rrset_aaaa : RRSet := ⟨"AAAA", aaaa_records⟩

/-- The buffers as `main` sets them up (lines 240-243): every slot of
`prev_roots` and the buffer `latest_root` hold the 32 zero bytes `zero32`. -/
def initial_state {D : Type} (zero32 : D) : QueryState D :=
  ⟨fun _ => zero32, zero32⟩

/-! ## Notions used to state the properties -/

/-- One halving step of the level size, `(n + 1) / 2`. -/
def halve (n : Nat) : Nat := (n + 1) / 2

/-- Every level above the first is produced from the level below it by the
inner loop of the builder: it has `(prev_count + 1) / 2` nodes and node `i` is
what `build_node` computes from the level below. -/
def Linked {D : Type} (hash_pair : D → D → D) (levels : List (List D)) : Prop :=
  ∀ k prev curr, levels[k]? = some prev → levels[k + 1]? = some curr →
    curr.length = (prev.length + 1) / 2 ∧
      ∀ i, i < curr.length → curr[i]? = build_node hash_pair prev i

/-- The sibling position of position `p`: `p + 1` if `p` is even, `p - 1` if
`p` is odd. -/
def sibling (p : Nat) : Nat := if p % 2 = 0 then p + 1 else p - 1

/-- The verifier described in section 4.3 of the specification, run over the
first `L` proof entries for leaf `i`: it starts from the leaf digest
`level[0][i]`; at level `L` an absent entry leaves the running digest `d`
unchanged, a present entry `s` is combined as `hash_pair d s` when the position
`i / 2^L` is even and as `hash_pair s d` when it is odd. -/
def spec_reconstruct {D : Type} (hash_pair : D → D → D) (tree : MerkleTree D) (i : Nat)
    (proof : Nat → Ptr) : Nat → Option D
  | 0 => tree.node_at 0 i
  | L + 1 =>
    (spec_reconstruct hash_pair tree i proof L).bind (fun d =>
      match proof L with
      | Ptr.null => some d
      | Ptr.node level index =>
        (tree.node_at level index).map (fun s =>
          if (i / 2 ^ L) % 2 = 0 then hash_pair d s else hash_pair s d))

/-- A record set of four records, for concrete evaluations. -/
def rrset_four : RRSet :=
  ⟨"NS", [⟨"aiori.in. 3600 IN NS ns1.aiori.in."⟩, ⟨"aiori.in. 3600 IN NS ns2.aiori.in."⟩,
    ⟨"aiori.in. 3600 IN NS ns3.aiori.in."⟩, ⟨"aiori.in. 3600 IN NS ns4.aiori.in."⟩]⟩

/-- A query succeeds when its type resolves to a non-empty record set: the
value is then the position `j` of that record set in the store and the root
`R` of its tree, the single digest of the last level. -/
def query_root {D : Type} (sha256_hash : String → D) (hash_pair : D → D → D)
    (rrsets : List RRSet) (query_type : String) : Option (Nat × D) :=
  (find_rrset rrsets query_type 0).bind (fun j =>
    (rrsets[j]?).bind (fun rrset =>
      if rrset.records = [] then none
      else
        (build_merkle_tree_levels sha256_hash hash_pair rrset).bind (fun tree =>
          (tree.node_at (tree.levels_count - 1) 0).map (fun root => (j, root)))))

/-- A finite sequence of queries: the successive calls of `query_rrset` made by
the loop of `main` (line 252), each given with the record sets it is called on;
the two buffers are handed from one call to the next. -/
def run_queries {D : Type} (sha256_hash : String → D) (hash_pair : D → D → D) :
    List (List RRSet × String) → QueryState D → (Nat → Ptr) →
      Option (List (QueryOutput D) × QueryState D)
  | [], st, _ => some ([], st)
  | (rrsets, query_type) :: rest, st, stack =>
    (query_rrset sha256_hash hash_pair rrsets query_type st stack).bind (fun r =>
      (run_queries sha256_hash hash_pair rest r.2 stack).map (fun rs => (r.1 :: rs.1, rs.2)))

/-- Query number `k` of a sequence of queries succeeds for the record set at
position `j` and computes the root `R`. -/
def succeeds_at {D : Type} (sha256_hash : String → D) (hash_pair : D → D → D)
    (queries : List (List RRSet × String)) (k j : Nat) (R : D) : Prop :=
  ∃ rrsets query_type, queries[k]? = some (rrsets, query_type) ∧
    query_root sha256_hash hash_pair rrsets query_type = some (j, R)

/-- The signature a call of `query_rrset` reports, if it reports one. -/
def QueryOutput.signature {D : Type} : QueryOutput D → Option D
  | QueryOutput.not_found => none
  | QueryOutput.empty_rrset => none
  | QueryOutput.answer _ mtl_signature _ _ => some mtl_signature

/-- The record set `AAAA` of `main` after its third record has been replaced. -/
def rrset_aaaa_changed : RRSet :=
  ⟨"AAAA", [⟨"aiori.in. 3600 IN AAAA 2001:db8::1"⟩, ⟨"aiori.in. 3600 IN AAAA 2001:db8::2"⟩,
    ⟨"aiori.in. 3600 IN AAAA 2001:db8::4"⟩]⟩

/-- The record sets of `main` after the third record of `AAAA` has been
replaced. -/
def rrsets_changed : List RRSet :=
  [⟨"A", a_records⟩, rrset_aaaa_changed, ⟨"TXT", txt_records⟩]

/-- The root of the record set `AAAA` of `main`, as a term. -/
def root_aaaa : Sym :=
  Sym.pair
    (Sym.pair (Sym.leaf "aiori.in. 3600 IN AAAA 2001:db8::1")
      (Sym.leaf "aiori.in. 3600 IN AAAA 2001:db8::2"))
    (Sym.leaf "aiori.in. 3600 IN AAAA 2001:db8::3")

/-- The root of the record set `AAAA` of `rrsets_changed`, as a term. -/
def root_aaaa_changed : Sym :=
  Sym.pair
    (Sym.pair (Sym.leaf "aiori.in. 3600 IN AAAA 2001:db8::1")
      (Sym.leaf "aiori.in. 3600 IN AAAA 2001:db8::2"))
    (Sym.leaf "aiori.in. 3600 IN AAAA 2001:db8::4")

/-! ## Auxiliary facts: the filling loop -/

theorem for_fill_spec {D : Type} (f : Nat → Option D) :
    ∀ (n : Nat) (out : List D), for_fill f n = some out →
      out.length = n ∧ ∀ i, i < n → out[i]? = f i := by
  intro n
  induction n with
  | zero =>
    intro out h
    simp [for_fill] at h
    subst h
    simp
  | succ n ih =>
    intro out h
    simp only [for_fill] at h
    cases hn : for_fill f n with
    | none => simp [hn] at h
    | some xs =>
      cases hx : f n with
      | none => simp [hn, hx] at h
      | some x =>
        simp [hn, hx] at h
        subst h
        obtain ⟨hlen, hget⟩ := ih xs hn
        refine ⟨by simp [hlen], ?_⟩
        intro i hi
        by_cases hin : i < n
        · rw [List.getElem?_append_left (by omega)]
          exact hget i hin
        · have hieq : i = n := by omega
          subst hieq
          rw [List.getElem?_append_right (by omega)]
          simp [hlen, hx]

theorem for_fill_total {D : Type} (f : Nat → Option D) :
    ∀ n : Nat, (∀ i, i < n → ∃ d, f i = some d) → ∃ out, for_fill f n = some out := by
  intro n
  induction n with
  | zero => intro _; exact ⟨[], rfl⟩
  | succ n ih =>
    intro h
    obtain ⟨xs, hxs⟩ := ih (fun i hi => h i (by omega))
    obtain ⟨x, hx⟩ := h n (by omega)
    exact ⟨xs ++ [x], by simp [for_fill, hxs, hx]⟩

/-! ## Auxiliary facts: the builder -/

theorem build_node_total {D : Type} (hash_pair : D → D → D) (prev : List D) (i : Nat)
    (hi : i < (prev.length + 1) / 2) : ∃ d, build_node hash_pair prev i = some d := by
  have hl : 2 * i < prev.length := by omega
  unfold build_node
  by_cases hr : 2 * i + 1 < prev.length
  · refine ⟨hash_pair prev[2 * i] prev[2 * i + 1], ?_⟩
    simp [hr, List.getElem?_eq_getElem hl, List.getElem?_eq_getElem hr]
  · refine ⟨prev[2 * i], ?_⟩
    simp [hr, List.getElem?_eq_getElem hl]

theorem build_level_spec {D : Type} (hash_pair : D → D → D) (prev : List D) :
    ∃ curr, for_fill (build_node hash_pair prev) ((prev.length + 1) / 2) = some curr ∧
      curr.length = (prev.length + 1) / 2 ∧
      ∀ i, i < curr.length → curr[i]? = build_node hash_pair prev i := by
  obtain ⟨curr, hcurr⟩ := for_fill_total (build_node hash_pair prev) ((prev.length + 1) / 2)
    (fun i hi => build_node_total hash_pair prev i hi)
  obtain ⟨hlen, hget⟩ := for_fill_spec _ _ _ hcurr
  exact ⟨curr, hcurr, hlen, fun i hi => hget i (by omega)⟩

theorem linked_singleton {D : Type} (hash_pair : D → D → D) (level0 : List D) :
    Linked hash_pair [level0] := by
  intro k prev curr _ h2
  simp at h2

theorem linked_snoc {D : Type} (hash_pair : D → D → D) (levels : List (List D))
    (prev curr : List D) (hlink : Linked hash_pair levels)
    (hprev : levels[levels.length - 1]? = some prev)
    (hlen : curr.length = (prev.length + 1) / 2)
    (hget : ∀ i, i < curr.length → curr[i]? = build_node hash_pair prev i) :
    Linked hash_pair (levels ++ [curr]) := by
  intro k p c hp hc
  by_cases hk : k + 1 < levels.length
  · rw [List.getElem?_append_left (by omega)] at hp
    rw [List.getElem?_append_left hk] at hc
    exact hlink k p c hp hc
  · have hk1 : k + 1 = levels.length := by
      by_contra hne
      have hge : (levels ++ [curr]).length ≤ k + 1 := by simp; omega
      rw [List.getElem?_eq_none hge] at hc
      exact Option.noConfusion hc
    rw [List.getElem?_append_left (by omega)] at hp
    rw [List.getElem?_append_right (by omega)] at hc
    have hkk : k = levels.length - 1 := by omega
    rw [hkk, hprev] at hp
    have hpp : prev = p := Option.some.inj hp
    have hcc : curr = c := by
      have : k + 1 - levels.length = 0 := by omega
      rw [this] at hc
      simpa using hc
    subst hpp
    subst hcc
    exact ⟨hlen, hget⟩

theorem build_upper_levels_spec {D : Type} (hash_pair : D → D → D) :
    ∀ (todo level : Nat) (levels : List (List D)),
      level = levels.length → 0 < level → Linked hash_pair levels →
      ∃ out, build_upper_levels hash_pair todo level levels = some out ∧
        out.length = levels.length + todo ∧ Linked hash_pair out ∧
        ∀ k, k < levels.length → out[k]? = levels[k]? := by
  intro todo
  induction todo with
  | zero =>
    intro level levels _ _ hlink
    exact ⟨levels, rfl, by simp, hlink, fun _ _ => rfl⟩
  | succ todo ih =>
    intro level levels hlevel hpos hlink
    have hlt : level - 1 < levels.length := by omega
    have hprev : levels[level - 1]? = some levels[level - 1] := List.getElem?_eq_getElem hlt
    obtain ⟨curr, hcurr, hlen, hget⟩ := build_level_spec hash_pair levels[level - 1]
    have hlink1 : Linked hash_pair (levels ++ [curr]) :=
      linked_snoc hash_pair levels _ curr hlink (by rw [← hlevel]; exact hprev) hlen hget
    obtain ⟨out, hout, holen, holink, hoget⟩ :=
      ih (level + 1) (levels ++ [curr]) (by simp [hlevel]) (by omega) hlink1
    refine ⟨out, ?_, ?_, holink, ?_⟩
    · simp only [build_upper_levels, hprev, Option.some_bind, hcurr]
      exact hout
    · simp at holen
      omega
    · intro k hk
      rw [hoget k (by simp; omega), List.getElem?_append_left hk]

/-! ## Auxiliary facts: the halving loop -/

theorem halving_loop_spec :
    ∀ (n m : Nat), 1 ≤ n →
      ∃ c, halving_loop n m = m + c ∧ halve^[c] n = 1 ∧ ∀ k, k < c → 2 ≤ halve^[k] n := by
  intro n
  induction n using Nat.strong_induction_on with
  | _ n ih =>
    intro m hn
    by_cases h1 : 1 < n
    · obtain ⟨c, hc, hone, hbig⟩ := ih ((n + 1) / 2) (by omega) (m + 1) (by omega)
      refine ⟨c + 1, ?_, ?_, ?_⟩
      · rw [halving_loop, if_pos h1, hc]
        omega
      · rw [Function.iterate_succ_apply]
        exact hone
      · intro k hk
        cases k with
        | zero => simpa using h1
        | succ j =>
          rw [Function.iterate_succ_apply]
          exact hbig j (by omega)
    · refine ⟨0, ?_, ?_, ?_⟩
      · rw [halving_loop, if_neg h1]
        rfl
      · simp
        omega
      · intro k hk
        omega

theorem linked_sizes {D : Type} (hash_pair : D → D → D) (levels : List (List D))
    (level0 : List D) (hlink : Linked hash_pair levels) (h0 : levels[0]? = some level0) :
    ∀ (k : Nat) (lvl : List D), levels[k]? = some lvl → lvl.length = halve^[k] level0.length := by
  intro k
  induction k with
  | zero =>
    intro lvl hl
    rw [h0] at hl
    have : level0 = lvl := Option.some.inj hl
    simp [this]
  | succ k ih =>
    intro lvl hl
    have hk : k < levels.length := by
      by_contra hge
      have : levels.length ≤ k + 1 := by omega
      rw [List.getElem?_eq_none this] at hl
      exact Option.noConfusion hl
    have hprev : levels[k]? = some levels[k] := List.getElem?_eq_getElem hk
    obtain ⟨hlen, _⟩ := hlink k _ lvl hprev hl
    rw [Function.iterate_succ_apply', ← ih _ hprev, hlen]
    rfl

theorem half_ceil (n : Nat) : ⌈(n : ℚ) / 2⌉₊ = (n + 1) / 2 := by
  rcases Nat.even_or_odd' n with ⟨m, hm | hm⟩
  · subst hm
    have h1 : ((2 * m : ℕ) : ℚ) / 2 = (m : ℚ) := by
      push_cast
      ring
    rw [h1, Nat.ceil_natCast]
    omega
  · subst hm
    have h2 : (2 * m + 1 + 1) / 2 = m + 1 := by omega
    rw [h2, Nat.ceil_eq_iff (by omega)]
    constructor
    · have h3 : ((m + 1 - 1 : ℕ) : ℚ) = (m : ℚ) := by simp
      rw [h3]
      push_cast
      linarith
    · push_cast
      linarith

/-! ## Auxiliary facts: the built tree -/

theorem leaf_level_spec {D : Type} (sha256_hash : String → D) (records : List RRRecord) :
    for_fill (leaf_node sha256_hash records) records.length =
      some (records.map (fun r => sha256_hash r.data)) := by
  obtain ⟨out, hout⟩ := for_fill_total (leaf_node sha256_hash records) records.length
    (fun i hi => ⟨sha256_hash records[i].data, by
      simp [leaf_node, List.getElem?_eq_getElem hi]⟩)
  obtain ⟨hlen, hget⟩ := for_fill_spec _ _ _ hout
  rw [hout]
  congr 1
  apply List.ext_getElem?
  intro i
  by_cases hi : i < records.length
  · rw [hget i hi]
    simp [leaf_node]
  · rw [List.getElem?_eq_none (by omega), List.getElem?_eq_none (by simp; omega)]

theorem build_spec {D : Type} (sha256_hash : String → D) (hash_pair : D → D → D)
    (rrset : RRSet) (h : rrset.records ≠ []) :
    ∃ tree, build_merkle_tree_levels sha256_hash hash_pair rrset = some tree ∧
      tree.levels_count = max_levels rrset.records.length ∧
      tree.levels.length = tree.levels_count ∧
      tree.levels[0]? = some (rrset.records.map (fun r => sha256_hash r.data)) ∧
      Linked hash_pair tree.levels := by
  have hcount : rrset.records.length ≠ 0 := fun h0 => h (List.length_eq_zero.mp h0)
  obtain ⟨out, hout, holen, holink, hoget⟩ :=
    build_upper_levels_spec hash_pair (max_levels rrset.records.length - 1) 1
      [rrset.records.map (fun r => sha256_hash r.data)] rfl (by omega)
      (linked_singleton hash_pair _)
  refine ⟨⟨out, max_levels rrset.records.length⟩, ?_, rfl, ?_, ?_, holink⟩
  · simp only [build_merkle_tree_levels, RRSet.count, if_neg hcount, leaf_level_spec,
      Option.some_bind, hout, Option.map_some']
  · simp only [List.length_singleton] at holen
    simp only [holen, max_levels]
    omega
  · simpa using hoget 0 (by simp)

theorem built_sizes {D : Type} (hash_pair : D → D → D) (levels : List (List D))
    (level0 : List D) (hpos : 1 ≤ level0.length) (hlink : Linked hash_pair levels)
    (h0 : levels[0]? = some level0) (hlen : levels.length = max_levels level0.length) :
    (∃ root, levels[levels.length - 1]? = some [root]) ∧
      ∀ k lvl, k + 1 < levels.length → levels[k]? = some lvl → 2 ≤ lvl.length := by
  obtain ⟨c, hc, hone, hbig⟩ := halving_loop_spec level0.length 0 hpos
  have hlen1 : levels.length = c + 1 := by
    rw [hlen, max_levels, hc]
    omega
  constructor
  · have hlt : levels.length - 1 < levels.length := by omega
    obtain ⟨lvl, hlast⟩ : ∃ lvl, levels[levels.length - 1]? = some lvl :=
      ⟨_, List.getElem?_eq_getElem hlt⟩
    have hsz := linked_sizes hash_pair levels level0 hlink h0 _ _ hlast
    have hcc : levels.length - 1 = c := by omega
    rw [hcc, hone] at hsz
    obtain ⟨root, hroot⟩ := List.length_eq_one.mp hsz
    exact ⟨root, by rw [hlast, hroot]⟩
  · intro k lvl hk hl
    rw [linked_sizes hash_pair levels level0 hlink h0 k lvl hl]
    exact hbig k (by omega)

/-! ## Auxiliary facts: the proof generator -/

theorem sibling_index_cast (p : Nat) :
    (if Int.tmod (p : Int) 2 = 0 then (p : Int) + 1 else (p : Int) - 1) =
      ((sibling p : Nat) : Int) := by
  have hm : Int.tmod (p : Int) 2 = ((p % 2 : Nat) : Int) := (Int.ofNat_tmod p 2).symm
  unfold sibling
  by_cases hp : p % 2 = 0
  · rw [hm, hp]
    simp
  · rw [hm, if_neg hp, if_neg (by exact_mod_cast hp)]
    omega

theorem proof_loop_spec {D : Type} (tree : MerkleTree D) :
    ∀ (todo level p : Nat) (buf : Nat → Ptr), level + todo ≤ tree.levels.length →
      ∃ out, proof_loop tree todo level (p : Int) buf = some out ∧
        (∀ k, (k < level ∨ level + todo ≤ k) → out k = buf k) ∧
        ∀ j, j < todo → ∃ lvl, tree.levels[level + j]? = some lvl ∧
          out (level + j) =
            if sibling (p / 2 ^ j) < lvl.length then
              Ptr.node (level + j) ((sibling (p / 2 ^ j) : Nat) : Int)
            else Ptr.null := by
  intro todo
  induction todo with
  | zero =>
    intro level p buf _
    exact ⟨buf, rfl, fun _ _ => rfl, fun j hj => absurd hj (Nat.not_lt_zero j)⟩
  | succ todo ih =>
    intro level p buf hle
    have hlt : level < tree.levels.length := by omega
    have hlvl : tree.levels[level]? = some tree.levels[level] := List.getElem?_eq_getElem hlt
    obtain ⟨out, hout, hframe, hent⟩ := ih (level + 1) (p / 2)
      (if sibling p < (tree.levels[level]).length then
          Function.update buf level (Ptr.node level ((sibling p : Nat) : Int))
        else Function.update buf level Ptr.null) (by omega)
    refine ⟨out, ?_, ?_, ?_⟩
    · simp only [proof_loop, MerkleTree.level_sizes, hlvl, Option.map_some', Option.some_bind,
        sibling_index_cast, ← Int.ofNat_tdiv]
      rw [← hout]
      congr 1
      by_cases hs : sibling p < (tree.levels[level]).length
      · have hs1 : ¬ ((sibling p : Nat) : Int) ≥ ((tree.levels[level]).length : Int) := by
          omega
        rw [if_neg hs1, if_pos hs]
      · have hs1 : ((sibling p : Nat) : Int) ≥ ((tree.levels[level]).length : Int) := by
          omega
        rw [if_pos hs1, if_neg hs]
    · intro k hk
      rw [hframe k (by omega)]
      have hne : k ≠ level := by omega
      split <;> simp [Function.update, hne]
    · intro j hj
      cases j with
      | zero =>
        refine ⟨tree.levels[level], hlvl, ?_⟩
        rw [Nat.add_zero, hframe level (by omega)]
        simp only [pow_zero, Nat.div_one]
        split <;> simp [Function.update]
      | succ j =>
        obtain ⟨lvl, hl, hv⟩ := hent j (by omega)
        refine ⟨lvl, ?_, ?_⟩
        · rw [← hl]
          congr 1
          omega
        · have hidx : level + (j + 1) = level + 1 + j := by omega
          have hdiv : p / 2 ^ (j + 1) = p / 2 / 2 ^ j := by
            rw [pow_succ, mul_comm, Nat.div_div_eq_div_mul]
          rw [hidx, hdiv]
          exact hv
theorem sibling_eq_xor (p : Nat) : sibling p = p ^^^ 1 := by
  unfold sibling
  apply Nat.eq_of_testBit_eq
  intro i
  rw [Nat.testBit_xor]
  cases i with
  | zero =>
    by_cases hp : p % 2 = 0
    · simp [hp, Nat.testBit_zero]
      omega
    · have h1 : p % 2 = 1 := by omega
      have h2 : (p - 1) % 2 = 0 := by omega
      simp [hp, Nat.testBit_zero, h1, h2]
  | succ i =>
    have h1 : Nat.testBit 1 (i + 1) = false := by
      simp [Nat.testBit_succ]
    rw [h1, Bool.xor_false]
    simp only [Nat.testBit_succ]
    congr 1
    split <;> omega

theorem path_in_range : ∀ (L n i : Nat), i < n → i / 2 ^ L < halve^[L] n := by
  intro L
  induction L with
  | zero => intro n i h; simpa using h
  | succ L ih =>
    intro n i h
    rw [Function.iterate_succ_apply', pow_succ, ← Nat.div_div_eq_div_mul]
    have := ih n i h
    generalize halve^[L] n = a at *
    generalize i / 2 ^ L = b at *
    unfold halve
    omega
theorem parent_node {D : Type} (hash_pair : D → D → D) (prev curr : List D)
    (hlen : curr.length = (prev.length + 1) / 2)
    (hget : ∀ i, i < curr.length → curr[i]? = build_node hash_pair prev i)
    (p : Nat) (hp : p < prev.length) :
    ∃ d, prev[p]? = some d ∧
      (sibling p < prev.length → ∃ s, prev[sibling p]? = some s ∧
        curr[p / 2]? = some (if p % 2 = 0 then hash_pair d s else hash_pair s d)) ∧
      (¬ sibling p < prev.length → curr[p / 2]? = some d) := by
  have hcur : curr[p / 2]? = build_node hash_pair prev (p / 2) := hget _ (by omega)
  refine ⟨prev[p], List.getElem?_eq_getElem hp, ?_, ?_⟩
  · intro hs
    refine ⟨prev[sibling p], List.getElem?_eq_getElem hs, ?_⟩
    rw [hcur]
    unfold build_node
    by_cases hev : p % 2 = 0
    · have h2 : 2 * (p / 2) = p := by omega
      have h3 : sibling p = p + 1 := by simp [sibling, hev]
      have hs1 : p + 1 < prev.length := by omega
      simp only [h2, h3, hs1, if_true, hev, List.getElem?_eq_getElem hp,
        List.getElem?_eq_getElem hs1, Option.some_bind, Option.map_some']
    · have h2 : 2 * (p / 2) = p - 1 := by omega
      have h3 : sibling p = p - 1 := by simp [sibling, hev]
      have h4 : p - 1 + 1 = p := by omega
      have hs1 : p - 1 < prev.length := by omega
      simp only [h2, h3, h4, hp, if_true, hev, if_false, List.getElem?_eq_getElem hp,
        List.getElem?_eq_getElem hs1, Option.some_bind, Option.map_some']
  · intro hs
    rw [hcur]
    unfold build_node
    have hev : p % 2 = 0 := by
      by_contra hodd
      apply hs
      simp only [sibling, if_neg hodd]
      omega
    have h2 : 2 * (p / 2) = p := by omega
    have hs1 : ¬ p + 1 < prev.length := by
      simpa [sibling, hev] using hs
    simp only [h2, hs1, if_false, List.getElem?_eq_getElem hp]

theorem node_at_natCast {D : Type} (tree : MerkleTree D) (level p : Nat) :
    tree.node_at level (p : Int) = (tree.levels[level]?).bind (fun lvl => lvl[p]?) := by
  simp [MerkleTree.node_at]

theorem generate_spec {D : Type} (tree : MerkleTree D) (p : Nat) (buf : Nat → Ptr)
    (hle : tree.levels_count - 1 ≤ tree.levels.length) :
    ∃ proof, generate_merkle_proof tree (p : Int) buf = some proof ∧
      (∀ k, tree.levels_count - 1 ≤ k → proof k = buf k) ∧
      ∀ L, L < tree.levels_count - 1 → ∃ lvl, tree.levels[L]? = some lvl ∧
        proof L =
          if sibling (p / 2 ^ L) < lvl.length then
            Ptr.node L ((sibling (p / 2 ^ L) : Nat) : Int)
          else Ptr.null := by
  obtain ⟨out, hout, hframe, hent⟩ :=
    proof_loop_spec tree (tree.levels_count - 1) 0 p buf (by omega)
  refine ⟨out, hout, fun k hk => hframe k (Or.inr (by omega)), ?_⟩
  intro L hL
  obtain ⟨lvl, hl, hv⟩ := hent L hL
  rw [Nat.zero_add] at hl hv
  exact ⟨lvl, hl, hv⟩

theorem reconstruct_invariant {D : Type} (hash_pair : D → D → D) (tree : MerkleTree D)
    (level0 : List D) (hlink : Linked hash_pair tree.levels)
    (h0 : tree.levels[0]? = some level0) (hlen : tree.levels.length = tree.levels_count)
    (i : Nat) (hi : i < level0.length) (proof : Nat → Ptr)
    (hproof : ∀ L, L < tree.levels_count - 1 → ∃ lvl, tree.levels[L]? = some lvl ∧
      proof L =
        if sibling (i / 2 ^ L) < lvl.length then
          Ptr.node L ((sibling (i / 2 ^ L) : Nat) : Int)
        else Ptr.null) :
    ∀ L, L ≤ tree.levels_count - 1 → ∃ lvl d, tree.levels[L]? = some lvl ∧
      lvl[i / 2 ^ L]? = some d ∧ spec_reconstruct hash_pair tree i proof L = some d := by
  intro L
  induction L with
  | zero =>
    intro _
    refine ⟨level0, level0[i], h0, ?_, ?_⟩
    · simp [List.getElem?_eq_getElem hi]
    · simp [spec_reconstruct, node_at_natCast, h0, List.getElem?_eq_getElem hi]
  | succ L ih =>
    intro hL
    obtain ⟨lvl, d, hl, hd, hrec⟩ := ih (by omega)
    obtain ⟨lvl1, hl1, hentry⟩ := hproof L (by omega)
    rw [hl] at hl1
    have hll : lvl = lvl1 := Option.some.inj hl1
    subst hll
    have hnext : L + 1 < tree.levels.length := by omega
    have hcurr : tree.levels[L + 1]? = some tree.levels[L + 1] := List.getElem?_eq_getElem hnext
    obtain ⟨hclen, hcget⟩ := hlink L lvl _ hl hcurr
    have hp : i / 2 ^ L < lvl.length := by
      by_contra hge
      rw [List.getElem?_eq_none (by omega)] at hd
      exact Option.noConfusion hd
    obtain ⟨d1, hd1, hpres, habs⟩ := parent_node hash_pair lvl _ hclen hcget (i / 2 ^ L) hp
    rw [hd] at hd1
    have hdd : d = d1 := Option.some.inj hd1
    subst hdd
    have hdiv : i / 2 ^ (L + 1) = i / 2 ^ L / 2 := by
      rw [pow_succ, Nat.div_div_eq_div_mul]
    by_cases hs : sibling (i / 2 ^ L) < lvl.length
    · obtain ⟨s, hsib, hpar⟩ := hpres hs
      refine ⟨_, _, hcurr, by rw [hdiv]; exact hpar, ?_⟩
      rw [if_pos hs] at hentry
      simp only [spec_reconstruct, hrec, Option.some_bind, hentry, node_at_natCast, hl, hsib,
        Option.map_some']
    · refine ⟨_, _, hcurr, by rw [hdiv]; exact habs hs, ?_⟩
      rw [if_neg hs] at hentry
      simp only [spec_reconstruct, hrec, Option.some_bind, hentry]

/-! ## Auxiliary facts: the query step -/

theorem generate_entries_load {D : Type} (tree : MerkleTree D) (p : Nat) (buf : Nat → Ptr)
    (hle : tree.levels_count - 1 ≤ tree.levels.length) :
    ∃ proof, generate_merkle_proof tree (p : Int) buf = some proof ∧
      ∀ L, L < tree.levels_count - 1 →
        proof L = Ptr.null ∨ ∃ q s, proof L = Ptr.node L q ∧ tree.node_at L q = some s := by
  obtain ⟨proof, hgen, _, hent⟩ := generate_spec tree p buf hle
  refine ⟨proof, hgen, ?_⟩
  intro L hL
  obtain ⟨lvl, hl, hv⟩ := hent L hL
  by_cases hq : sibling (p / 2 ^ L) < lvl.length
  · rw [if_pos hq] at hv
    refine Or.inr ⟨_, lvl[sibling (p / 2 ^ L)], hv, ?_⟩
    simp only [node_at_natCast, hl, Option.some_bind]
    exact List.getElem?_eq_getElem hq
  · rw [if_neg hq] at hv
    exact Or.inl hv

theorem show_proof_total {D : Type} (tree : MerkleTree D) (proof : Nat → Ptr) :
    ∀ n : Nat,
      (∀ L, L < n → proof L = Ptr.null ∨
        ∃ q s, proof L = Ptr.node L q ∧ tree.node_at L q = some s) →
      ∃ out, show_proof tree proof n = some out := by
  intro n
  induction n with
  | zero => intro _; exact ⟨[], rfl⟩
  | succ n ih =>
    intro hv
    obtain ⟨out, hout⟩ := ih (fun L hL => hv L (by omega))
    rcases hv n (by omega) with hnull | ⟨q, s, hnode, hs⟩
    · exact ⟨out ++ [none], by simp [show_proof, hout, hnull]⟩
    · exact ⟨out ++ [some s], by simp [show_proof, hout, hnode, hs]⟩

theorem max_levels_pos (count : Nat) : 0 < max_levels count := by
  unfold max_levels
  omega

theorem query_answer {D : Type} (sha256_hash : String → D) (hash_pair : D → D → D)
    (rrsets : List RRSet) (query_type : String) (st : QueryState D) (stack : Nat → Ptr)
    (j : Nat) (rrset : RRSet) (hfind : find_rrset rrsets query_type 0 = some j)
    (hget : rrsets[j]? = some rrset) (hne : rrset.records ≠ []) :
    ∃ tree root proof, build_merkle_tree_levels sha256_hash hash_pair rrset = some tree ∧
      tree.levels[tree.levels_count - 1]? = some [root] ∧
      query_rrset sha256_hash hash_pair rrsets query_type st stack =
        some (QueryOutput.answer root (hash_pair root (st.prev_roots j)) root proof,
          ⟨Function.update st.prev_roots j root, root⟩) := by
  obtain ⟨tree, hbuild, hcount, hlen, h0, hlink⟩ := build_spec sha256_hash hash_pair rrset hne
  have hpos : 1 ≤ (rrset.records.map (fun r => sha256_hash r.data)).length := by
    rw [List.length_map]
    exact List.length_pos.mpr hne
  obtain ⟨⟨root, hroot⟩, _⟩ := built_sizes hash_pair tree.levels _ hpos hlink h0
    (by rw [hlen, hcount, List.length_map])
  rw [hlen] at hroot
  have hcpos : tree.levels_count ≠ 0 := by
    have := max_levels_pos rrset.records.length
    omega
  have hrootat : tree.node_at (tree.levels_count - 1) 0 = some root := by
    simp [MerkleTree.node_at, hroot]
  have hcnt : rrset.count > 0 := List.length_pos.mpr hne
  obtain ⟨proof, hgen, hload⟩ := generate_entries_load tree 0 stack (by omega)
  rw [Nat.cast_zero] at hgen
  obtain ⟨shown, hshown⟩ := show_proof_total tree proof (tree.levels_count - 1) hload
  refine ⟨tree, root, some shown, hbuild, hroot, ?_⟩
  simp only [query_rrset, hfind, hget, Option.some_bind, hbuild, if_neg hcpos, hrootat,
    compute_mtl_signature, if_pos hcnt, hgen, hshown, Option.map_some']

/-! ## The tree builder: shape, pairing rule and root -/

/-- C3 (pairing rule with carry, not re-hash): in the tree built from a
non-empty record set, every node `i` of a level above the leaves is
`hash_pair prev[2i] prev[2i+1]` (left argument first) when position `2i+1`
exists in the level below, and is `prev[2i]` itself, unchanged, otherwise. -/
theorem pairing_rule {D : Type} (sha256_hash : String → D) (hash_pair : D → D → D)
    (rrset : RRSet) (h : rrset.records ≠ []) :
    ∃ tree, build_merkle_tree_levels sha256_hash hash_pair rrset = some tree ∧
      ∀ k prev curr, tree.levels[k]? = some prev → tree.levels[k + 1]? = some curr →
        ∀ i, i < curr.length →
          ∃ left, prev[2 * i]? = some left ∧
            if 2 * i + 1 < prev.length then
              ∃ right, prev[2 * i + 1]? = some right ∧ curr[i]? = some (hash_pair left right)
            else curr[i]? = some left := by
  obtain ⟨tree, hbuild, _, _, _, hlink⟩ := build_spec sha256_hash hash_pair rrset h
  refine ⟨tree, hbuild, ?_⟩
  intro k prev curr hp hc i hi
  obtain ⟨hlen, hget⟩ := hlink k prev curr hp hc
  have hl : 2 * i < prev.length := by omega
  refine ⟨prev[2 * i], List.getElem?_eq_getElem hl, ?_⟩
  rw [hget i hi]
  unfold build_node
  by_cases hr : 2 * i + 1 < prev.length
  · simp only [hr, if_true]
    exact ⟨prev[2 * i + 1], List.getElem?_eq_getElem hr, by
      simp [List.getElem?_eq_getElem hl, List.getElem?_eq_getElem hr]⟩
  · simp only [hr, if_false]
    exact List.getElem?_eq_getElem hl

/-- Witness of C3 on the record set `AAAA` of `main`. -/
theorem pairing_rule_witness :
    rrset_aaaa.records ≠ [] ∧
    ∃ tree, build_merkle_tree_levels Sym.leaf Sym.pair rrset_aaaa = some tree ∧
      ∀ k prev curr, tree.levels[k]? = some prev → tree.levels[k + 1]? = some curr →
        ∀ i, i < curr.length →
          ∃ left, prev[2 * i]? = some left ∧
            if 2 * i + 1 < prev.length then
              ∃ right, prev[2 * i + 1]? = some right ∧ curr[i]? = some (Sym.pair left right)
            else curr[i]? = some left :=
  ⟨by simp [rrset_aaaa, aaaa_records],
    pairing_rule Sym.leaf Sym.pair rrset_aaaa (by simp [rrset_aaaa, aaaa_records])⟩

/-- C4 (level shape): for a non-empty record set of `n` records, level 0 of the
built tree has exactly `n` digests, digest `i` being `sha256_hash` of record
`i`, and every level `k + 1` has `ceil(size(level k) / 2)` digests. -/
theorem level_shape {D : Type} (sha256_hash : String → D) (hash_pair : D → D → D)
    (rrset : RRSet) (h : rrset.records ≠ []) :
    ∃ tree, build_merkle_tree_levels sha256_hash hash_pair rrset = some tree ∧
      (∃ level0, tree.levels[0]? = some level0 ∧ level0.length = rrset.records.length ∧
        ∀ (i : Nat) (r : RRRecord), rrset.records[i]? = some r → level0[i]? = some (sha256_hash r.data)) ∧
      ∀ k prev curr, tree.levels[k]? = some prev → tree.levels[k + 1]? = some curr →
        curr.length = ⌈(prev.length : ℚ) / 2⌉₊ := by
  obtain ⟨tree, hbuild, _, _, h0, hlink⟩ := build_spec sha256_hash hash_pair rrset h
  refine ⟨tree, hbuild, ⟨_, h0, by simp, ?_⟩, ?_⟩
  · intro i r hr
    simp [hr]
  · intro k prev curr hp hc
    rw [half_ceil]
    exact (hlink k prev curr hp hc).1

/-- Witness of C4 on the record set `A` of `main`. -/
theorem level_shape_witness :
    rrset_a.records ≠ [] ∧
    ∃ tree, build_merkle_tree_levels Sym.leaf Sym.pair rrset_a = some tree ∧
      (∃ level0, tree.levels[0]? = some level0 ∧ level0.length = rrset_a.records.length ∧
        ∀ (i : Nat) (r : RRRecord), rrset_a.records[i]? = some r → level0[i]? = some (Sym.leaf r.data)) ∧
      ∀ k prev curr, tree.levels[k]? = some prev → tree.levels[k + 1]? = some curr →
        curr.length = ⌈(prev.length : ℚ) / 2⌉₊ :=
  ⟨by simp [rrset_a, a_records],
    level_shape Sym.leaf Sym.pair rrset_a (by simp [rrset_a, a_records])⟩

/-- C5 (root invariant): for a non-empty record set, the number of levels built
is the level count computed by the halving loop, the last level holds exactly
one digest, and every level before the last holds at least two. -/
theorem root_invariant {D : Type} (sha256_hash : String → D) (hash_pair : D → D → D)
    (rrset : RRSet) (h : rrset.records ≠ []) :
    ∃ tree, build_merkle_tree_levels sha256_hash hash_pair rrset = some tree ∧
      tree.levels_count = max_levels rrset.count ∧
      tree.levels.length = tree.levels_count ∧
      (∃ root, tree.levels[tree.levels_count - 1]? = some [root]) ∧
      ∀ k lvl, k + 1 < tree.levels_count → tree.levels[k]? = some lvl → 2 ≤ lvl.length := by
  obtain ⟨tree, hbuild, hcount, hlen, h0, hlink⟩ := build_spec sha256_hash hash_pair rrset h
  have hpos : 1 ≤ (rrset.records.map (fun r => sha256_hash r.data)).length := by
    rw [List.length_map]
    exact List.length_pos.mpr h
  obtain ⟨hroot, hbig⟩ := built_sizes hash_pair tree.levels _ hpos hlink h0
    (by rw [hlen, hcount, List.length_map])
  refine ⟨tree, hbuild, hcount, hlen, ?_, ?_⟩
  · rw [← hlen]
    exact hroot
  · intro k lvl hk hl
    exact hbig k lvl (by omega) hl

/-- Witness of C5 on the record set `A` of `main`. -/
theorem root_invariant_witness :
    rrset_a.records ≠ [] ∧
    ∃ tree, build_merkle_tree_levels Sym.leaf Sym.pair rrset_a = some tree ∧
      tree.levels_count = max_levels rrset_a.count ∧
      tree.levels.length = tree.levels_count ∧
      (∃ root, tree.levels[tree.levels_count - 1]? = some [root]) ∧
      ∀ k lvl, k + 1 < tree.levels_count → tree.levels[k]? = some lvl → 2 ≤ lvl.length :=
  ⟨by simp [rrset_a, a_records],
    root_invariant Sym.leaf Sym.pair rrset_a (by simp [rrset_a, a_records])⟩

/-! ## The proof generator: length, sibling rule and round trip -/

/-- C1 (proof round-trip): for a non-empty record set and a leaf index
`i < count`, running the verifier of the specification over the proof written
by `generate_merkle_proof` for the built tree, from the leaf digest
`level[0][i]` and through all `levels_count - 1` entries, yields exactly the
root, the single digest of the last level. -/
theorem proof_round_trip {D : Type} (sha256_hash : String → D) (hash_pair : D → D → D)
    (rrset : RRSet) (h : rrset.records ≠ []) (i : Nat) (hi : i < rrset.records.length)
    (proof_out : Nat → Ptr) :
    ∃ tree proof root, build_merkle_tree_levels sha256_hash hash_pair rrset = some tree ∧
      generate_merkle_proof tree (i : Int) proof_out = some proof ∧
      tree.levels[tree.levels_count - 1]? = some [root] ∧
      spec_reconstruct hash_pair tree i proof (tree.levels_count - 1) = some root := by
  obtain ⟨tree, hbuild, hcount, hlen, h0, hlink⟩ := build_spec sha256_hash hash_pair rrset h
  have hpos : 1 ≤ (rrset.records.map (fun r => sha256_hash r.data)).length := by
    rw [List.length_map]
    exact List.length_pos.mpr h
  obtain ⟨⟨root, hroot⟩, _⟩ := built_sizes hash_pair tree.levels _ hpos hlink h0
    (by rw [hlen, hcount, List.length_map])
  rw [hlen] at hroot
  obtain ⟨proof, hgen, _, hent⟩ := generate_spec tree i proof_out (by omega)
  obtain ⟨lvl, d, hl, hd, hrec⟩ :=
    reconstruct_invariant hash_pair tree _ hlink h0 hlen i (by simpa using hi) proof hent
      (tree.levels_count - 1) (le_refl _)
  rw [hroot] at hl
  have hlr : [root] = lvl := Option.some.inj hl
  subst hlr
  have hzero : i / 2 ^ (tree.levels_count - 1) = 0 := by
    by_contra hne
    rw [List.getElem?_eq_none
      (by rw [List.length_singleton]; exact Nat.one_le_iff_ne_zero.mpr hne)] at hd
    exact Option.noConfusion hd
  rw [hzero] at hd
  have hdr : root = d := by simpa using hd
  subst hdr
  exact ⟨tree, proof, root, hbuild, hgen, hroot, hrec⟩

/-- Witness of C1: leaf 4 of the record set `A` of `main`. -/
theorem proof_round_trip_witness :
    rrset_a.records ≠ [] ∧ 4 < rrset_a.records.length ∧
    ∃ tree proof root, build_merkle_tree_levels Sym.leaf Sym.pair rrset_a = some tree ∧
      generate_merkle_proof tree ((4 : Nat) : Int) (fun _ => Ptr.null) = some proof ∧
      tree.levels[tree.levels_count - 1]? = some [root] ∧
      spec_reconstruct Sym.pair tree 4 proof (tree.levels_count - 1) = some root :=
  ⟨by simp [rrset_a, a_records], by simp [rrset_a, a_records],
    proof_round_trip Sym.leaf Sym.pair rrset_a (by simp [rrset_a, a_records]) 4
      (by simp [rrset_a, a_records]) (fun _ => Ptr.null)⟩

/-- C9 (sibling path rule): for a non-empty record set and a valid leaf index
`i`, the entry written at each level `L` from `0` to `levels_count - 2` is
determined by the running position `p = i / 2^L`: with `q = p XOR 1` (which is
`p + 1` for even `p` and `p - 1` for odd `p`), the entry is the address of the
digest `level[L][q]` when `q < size(level L)`, and is `NULL` otherwise. -/
theorem sibling_path_rule {D : Type} (sha256_hash : String → D) (hash_pair : D → D → D)
    (rrset : RRSet) (h : rrset.records ≠ []) (i : Nat) (hi : i < rrset.records.length)
    (proof_out : Nat → Ptr) :
    ∃ tree proof, build_merkle_tree_levels sha256_hash hash_pair rrset = some tree ∧
      generate_merkle_proof tree (i : Int) proof_out = some proof ∧
      ∀ L, L + 2 ≤ tree.levels_count → ∃ lvl, tree.levels[L]? = some lvl ∧
        i / 2 ^ L < lvl.length ∧
        ((i / 2 ^ L) ^^^ 1 = if (i / 2 ^ L) % 2 = 0 then i / 2 ^ L + 1 else i / 2 ^ L - 1) ∧
        ((i / 2 ^ L) ^^^ 1 < lvl.length →
          proof L = Ptr.node L (((i / 2 ^ L) ^^^ 1 : Nat) : Int) ∧
          ∃ s, lvl[(i / 2 ^ L) ^^^ 1]? = some s ∧ tree.load (proof L) = some s) ∧
        (¬ (i / 2 ^ L) ^^^ 1 < lvl.length → proof L = Ptr.null) := by
  obtain ⟨tree, hbuild, hcount, hlen, h0, hlink⟩ := build_spec sha256_hash hash_pair rrset h
  obtain ⟨proof, hgen, _, hent⟩ := generate_spec tree i proof_out (by omega)
  refine ⟨tree, proof, hbuild, hgen, ?_⟩
  intro L hL
  obtain ⟨lvl, hl, hv⟩ := hent L (by omega)
  have hsz := linked_sizes hash_pair tree.levels _ hlink h0 L lvl hl
  have hrange : i / 2 ^ L < lvl.length := by
    rw [hsz]
    exact path_in_range L _ i (by simpa using hi)
  have hx : (i / 2 ^ L) ^^^ 1 = sibling (i / 2 ^ L) := (sibling_eq_xor _).symm
  refine ⟨lvl, hl, hrange, ?_, ?_, ?_⟩
  · rw [hx]
    rfl
  · intro hq
    rw [hx] at hq ⊢
    rw [if_pos hq] at hv
    refine ⟨hv, lvl[sibling (i / 2 ^ L)], List.getElem?_eq_getElem hq, ?_⟩
    rw [hv]
    simp only [MerkleTree.load, node_at_natCast, hl, Option.some_bind]
    exact List.getElem?_eq_getElem hq
  · intro hq
    rw [hx] at hq
    rw [if_neg hq] at hv
    exact hv

/-- Witness of C9: leaf 4 of the record set `A` of `main`. -/
theorem sibling_path_rule_witness :
    rrset_a.records ≠ [] ∧ 4 < rrset_a.records.length ∧
    ∃ tree proof, build_merkle_tree_levels Sym.leaf Sym.pair rrset_a = some tree ∧
      generate_merkle_proof tree ((4 : Nat) : Int) (fun _ => Ptr.null) = some proof ∧
      ∀ L, L + 2 ≤ tree.levels_count → ∃ lvl, tree.levels[L]? = some lvl ∧
        4 / 2 ^ L < lvl.length ∧
        ((4 / 2 ^ L) ^^^ 1 = if (4 / 2 ^ L) % 2 = 0 then 4 / 2 ^ L + 1 else 4 / 2 ^ L - 1) ∧
        ((4 / 2 ^ L) ^^^ 1 < lvl.length →
          proof L = Ptr.node L (((4 / 2 ^ L) ^^^ 1 : Nat) : Int) ∧
          ∃ s, lvl[(4 / 2 ^ L) ^^^ 1]? = some s ∧ tree.load (proof L) = some s) ∧
        (¬ (4 / 2 ^ L) ^^^ 1 < lvl.length → proof L = Ptr.null) :=
  ⟨by simp [rrset_a, a_records], by simp [rrset_a, a_records],
    sibling_path_rule Sym.leaf Sym.pair rrset_a (by simp [rrset_a, a_records]) 4
      (by simp [rrset_a, a_records]) (fun _ => Ptr.null)⟩

/-- C10 (proof length): for a non-empty record set and a valid leaf index,
`generate_merkle_proof` writes the positions `0 .. levels_count - 2` of
`proof_out`, position `L` receiving the entry of level `L` whatever the array
held before, and leaves every other position as it was. -/
theorem proof_length {D : Type} (sha256_hash : String → D) (hash_pair : D → D → D)
    (rrset : RRSet) (h : rrset.records ≠ []) (i : Nat) (hi : i < rrset.records.length)
    (proof_out : Nat → Ptr) :
    ∃ tree proof, build_merkle_tree_levels sha256_hash hash_pair rrset = some tree ∧
      generate_merkle_proof tree (i : Int) proof_out = some proof ∧
      (∀ k, tree.levels_count - 1 ≤ k → proof k = proof_out k) ∧
      ∀ L, L < tree.levels_count - 1 →
        (proof L = Ptr.null ∨ ∃ q, proof L = Ptr.node L q) ∧
        ∀ other : Nat → Ptr, ∃ proof2,
          generate_merkle_proof tree (i : Int) other = some proof2 ∧ proof2 L = proof L := by
  obtain ⟨tree, hbuild, hcount, hlen, h0, hlink⟩ := build_spec sha256_hash hash_pair rrset h
  obtain ⟨proof, hgen, hframe, hent⟩ := generate_spec tree i proof_out (by omega)
  have _hvalid := hi
  refine ⟨tree, proof, hbuild, hgen, hframe, ?_⟩
  intro L hL
  obtain ⟨lvl, hl, hv⟩ := hent L hL
  constructor
  · by_cases hq : sibling (i / 2 ^ L) < lvl.length
    · rw [if_pos hq] at hv
      exact Or.inr ⟨_, hv⟩
    · rw [if_neg hq] at hv
      exact Or.inl hv
  · intro other
    obtain ⟨proof2, hgen2, _, hent2⟩ := generate_spec tree i other (by omega)
    obtain ⟨lvl2, hl2, hv2⟩ := hent2 L hL
    rw [hl] at hl2
    have hll : lvl = lvl2 := Option.some.inj hl2
    subst hll
    exact ⟨proof2, hgen2, by rw [hv2, hv]⟩

/-- Witness of C10: leaf 1 of the record set `AAAA` of `main`. -/
theorem proof_length_witness :
    rrset_aaaa.records ≠ [] ∧ 1 < rrset_aaaa.records.length ∧
    ∃ tree proof, build_merkle_tree_levels Sym.leaf Sym.pair rrset_aaaa = some tree ∧
      generate_merkle_proof tree ((1 : Nat) : Int) (fun _ => Ptr.node 7 7) = some proof ∧
      (∀ k, tree.levels_count - 1 ≤ k → proof k = (fun _ => Ptr.node 7 7) k) ∧
      ∀ L, L < tree.levels_count - 1 →
        (proof L = Ptr.null ∨ ∃ q, proof L = Ptr.node L q) ∧
        ∀ other : Nat → Ptr, ∃ proof2,
          generate_merkle_proof tree ((1 : Nat) : Int) other = some proof2 ∧
            proof2 L = proof L :=
  ⟨by simp [rrset_aaaa, aaaa_records], by simp [rrset_aaaa, aaaa_records],
    proof_length Sym.leaf Sym.pair rrset_aaaa (by simp [rrset_aaaa, aaaa_records]) 1
      (by simp [rrset_aaaa, aaaa_records]) (fun _ => Ptr.node 7 7)⟩

/-- C2 fails on the code: on the record set `AAAA` of `main`, whose level 0 has
3 digests, `generate_merkle_proof` called with `leaf_index = 3` reports no
invalid index; it returns normally with the entries `levels[0] + 2 * 32` and
`levels[1] + 0 * 32` written to `proof_out`. -/
theorem index_bound_counterexample :
    (build_merkle_tree_levels Sym.leaf Sym.pair rrset_aaaa).bind (fun tree =>
      (generate_merkle_proof tree 3 (fun _ => Ptr.null)).map (fun proof =>
        (tree.level_sizes 0, proof 0, proof 1))) =
      some (some 3, Ptr.node 0 2, Ptr.node 1 0) := by
  simp [build_merkle_tree_levels, rrset_aaaa, aaaa_records, RRSet.count, max_levels, halving_loop,
    for_fill, leaf_node, build_upper_levels, build_node, generate_merkle_proof, proof_loop,
    MerkleTree.level_sizes, Function.update, Int.tmod, Int.tdiv]

/-- C2, as the code has it: `generate_merkle_proof` checks no index and has no
failure result.  For a non-empty record set and every `leaf_index` at or above
`size(level 0)` it returns normally, and each of the `levels_count - 1` entries
it has written is `NULL` or the address of an existing node of its level. -/
theorem proof_without_index_check {D : Type} (sha256_hash : String → D)
    (hash_pair : D → D → D) (rrset : RRSet) (h : rrset.records ≠ []) (leaf_index : Int)
    (hout : (rrset.records.length : Int) ≤ leaf_index) (proof_out : Nat → Ptr) :
    ∃ tree proof, build_merkle_tree_levels sha256_hash hash_pair rrset = some tree ∧
      generate_merkle_proof tree leaf_index proof_out = some proof ∧
      ∀ L, L < tree.levels_count - 1 →
        proof L = Ptr.null ∨ ∃ q s, proof L = Ptr.node L q ∧ tree.load (proof L) = some s := by
  obtain ⟨tree, hbuild, hcount, hlen, h0, hlink⟩ := build_spec sha256_hash hash_pair rrset h
  obtain ⟨p, hp⟩ := Int.eq_ofNat_of_zero_le (by omega : 0 ≤ leaf_index)
  subst hp
  obtain ⟨proof, hgen, hload⟩ := generate_entries_load tree p proof_out (by omega)
  refine ⟨tree, proof, hbuild, hgen, ?_⟩
  intro L hL
  rcases hload L hL with hnull | ⟨q, s, hnode, hs⟩
  · exact Or.inl hnull
  · exact Or.inr ⟨q, s, hnode, by rw [hnode]; exact hs⟩

/-- Witness of the amended C2: `leaf_index = 3 = size(level 0)` on the record
set `AAAA` of `main`. -/
theorem proof_without_index_check_witness :
    rrset_aaaa.records ≠ [] ∧ (rrset_aaaa.records.length : Int) ≤ 3 ∧
    ∃ tree proof, build_merkle_tree_levels Sym.leaf Sym.pair rrset_aaaa = some tree ∧
      generate_merkle_proof tree 3 (fun _ => Ptr.null) = some proof ∧
      ∀ L, L < tree.levels_count - 1 →
        proof L = Ptr.null ∨ ∃ q s, proof L = Ptr.node L q ∧ tree.load (proof L) = some s :=
  ⟨by simp [rrset_aaaa, aaaa_records], by simp [rrset_aaaa, aaaa_records],
    proof_without_index_check Sym.leaf Sym.pair rrset_aaaa (by simp [rrset_aaaa, aaaa_records]) 3
      (by simp [rrset_aaaa, aaaa_records]) (fun _ => Ptr.null)⟩

/-! ## The query step -/

/-- C6 (empty input): the tree built from zero records has zero levels, and a
query that resolves to such a record set reports the empty record set and
returns with both buffers untouched: no level is read, no signature is computed
and no proof is produced. -/
theorem empty_input {D : Type} (sha256_hash : String → D) (hash_pair : D → D → D)
    (rrsets : List RRSet) (query_type : String) (st : QueryState D) (stack : Nat → Ptr)
    (j : Nat) (rrset : RRSet) (hempty : rrset.records = [])
    (hfind : find_rrset rrsets query_type 0 = some j) (hget : rrsets[j]? = some rrset) :
    build_merkle_tree_levels sha256_hash hash_pair rrset = some ⟨[], 0⟩ ∧
      query_rrset sha256_hash hash_pair rrsets query_type st stack =
        some (QueryOutput.empty_rrset, st) := by
  have hbuild : build_merkle_tree_levels sha256_hash hash_pair rrset = some ⟨[], 0⟩ := by
    simp [build_merkle_tree_levels, RRSet.count, hempty]
  refine ⟨hbuild, ?_⟩
  simp only [query_rrset, hfind, hget, Option.some_bind, hbuild, if_true]

/-- Witness of C6: a store whose only record set, of type `A`, has no record. -/
theorem empty_input_witness :
    (⟨"A", []⟩ : RRSet).records = [] ∧ find_rrset [⟨"A", []⟩] "A" 0 = some 0 ∧
    [(⟨"A", []⟩ : RRSet)][0]? = some ⟨"A", []⟩ ∧
    build_merkle_tree_levels Sym.leaf Sym.pair ⟨"A", []⟩ = some ⟨[], 0⟩ ∧
      query_rrset Sym.leaf Sym.pair [⟨"A", []⟩] "A" (initial_state Sym.zero)
          (fun _ => Ptr.null) =
        some (QueryOutput.empty_rrset, initial_state Sym.zero) :=
  ⟨rfl, by simp [find_rrset], rfl,
    empty_input Sym.leaf Sym.pair [⟨"A", []⟩] "A" (initial_state Sym.zero) (fun _ => Ptr.null) 0
      ⟨"A", []⟩ rfl (by simp [find_rrset]) rfl⟩

/-- C7 (observe step): a query that resolves to the non-empty record set at
position `j`, whose tree has root `R`, reports the signature
`hash_pair R P`, where `P` is the entry of `prev_roots` for `j` before the
query, and afterwards the entry of `prev_roots` for `j` is `R`. -/
theorem observe_step {D : Type} (sha256_hash : String → D) (hash_pair : D → D → D)
    (rrsets : List RRSet) (query_type : String) (st : QueryState D) (stack : Nat → Ptr)
    (j : Nat) (rrset : RRSet) (hfind : find_rrset rrsets query_type 0 = some j)
    (hget : rrsets[j]? = some rrset) (hne : rrset.records ≠ []) :
    ∃ tree R proof st1, build_merkle_tree_levels sha256_hash hash_pair rrset = some tree ∧
      tree.levels[tree.levels_count - 1]? = some [R] ∧
      query_rrset sha256_hash hash_pair rrsets query_type st stack =
        some (QueryOutput.answer R (hash_pair R (st.prev_roots j)) R proof, st1) ∧
      st1.prev_roots j = R := by
  obtain ⟨tree, root, proof, hbuild, hroot, hq⟩ :=
    query_answer sha256_hash hash_pair rrsets query_type st stack j rrset hfind hget hne
  exact ⟨tree, root, proof, _, hbuild, hroot, hq, by simp⟩

/-- Witness of C7: the query `AAAA` on the record sets of `main`, from the
zeroed buffers. -/
theorem observe_step_witness :
    find_rrset rrsets "AAAA" 0 = some 1 ∧ rrsets[1]? = some rrset_aaaa ∧
    rrset_aaaa.records ≠ [] ∧
    ∃ tree R proof st1, build_merkle_tree_levels Sym.leaf Sym.pair rrset_aaaa = some tree ∧
      tree.levels[tree.levels_count - 1]? = some [R] ∧
      query_rrset Sym.leaf Sym.pair rrsets "AAAA" (initial_state Sym.zero) (fun _ => Ptr.null) =
        some (QueryOutput.answer R (Sym.pair R ((initial_state Sym.zero).prev_roots 1)) R proof,
          st1) ∧
      st1.prev_roots 1 = R :=
  ⟨by simp [find_rrset, rrsets], rfl, by simp [rrset_aaaa, aaaa_records],
    observe_step Sym.leaf Sym.pair rrsets "AAAA" (initial_state Sym.zero) (fun _ => Ptr.null) 1
      rrset_aaaa (by simp [find_rrset, rrsets]) rfl (by simp [rrset_aaaa, aaaa_records])⟩

/-- C8 (atomicity on error): a query that fails, because the queried type
matches no record set or because the matched record set has no record, reports
only that failure, which carries neither a signature nor a proof, and returns
the `prev_roots` table and the `latest_root` buffer exactly as it received
them. -/
theorem atomicity_on_error {D : Type} (sha256_hash : String → D) (hash_pair : D → D → D)
    (rrsets : List RRSet) (query_type : String) (st : QueryState D) (stack : Nat → Ptr)
    (hfail : find_rrset rrsets query_type 0 = none ∨
      ∃ j rrset, find_rrset rrsets query_type 0 = some j ∧ rrsets[j]? = some rrset ∧
        rrset.records = []) :
    ∃ out, query_rrset sha256_hash hash_pair rrsets query_type st stack = some (out, st) ∧
      (out = QueryOutput.not_found ∨ out = QueryOutput.empty_rrset) ∧
      ∀ R sig latest proof, out ≠ QueryOutput.answer R sig latest proof := by
  rcases hfail with hnone | ⟨j, rrset, hfind, hget, hempty⟩
  · refine ⟨QueryOutput.not_found, ?_, Or.inl rfl, ?_⟩
    · simp only [query_rrset, hnone]
    · intro R sig latest proof hcontra
      exact QueryOutput.noConfusion hcontra
  · refine ⟨QueryOutput.empty_rrset, ?_, Or.inr rfl, ?_⟩
    · have hbuild : build_merkle_tree_levels sha256_hash hash_pair rrset = some ⟨[], 0⟩ := by
        simp [build_merkle_tree_levels, RRSet.count, hempty]
      simp only [query_rrset, hfind, hget, Option.some_bind, hbuild, if_true]
    · intro R sig latest proof hcontra
      exact QueryOutput.noConfusion hcontra

/-- Witness of C8: the query `MX`, a type that `main` does not hold. -/
theorem atomicity_on_error_witness :
    (find_rrset rrsets "MX" 0 = none ∨
      ∃ j rrset, find_rrset rrsets "MX" 0 = some j ∧ rrsets[j]? = some rrset ∧
        rrset.records = []) ∧
    ∃ out, query_rrset Sym.leaf Sym.pair rrsets "MX" (initial_state Sym.zero)
        (fun _ => Ptr.null) = some (out, initial_state Sym.zero) ∧
      (out = QueryOutput.not_found ∨ out = QueryOutput.empty_rrset) ∧
      ∀ R sig latest proof, out ≠ QueryOutput.answer R sig latest proof :=
  ⟨Or.inl (by simp [find_rrset, rrsets]),
    atomicity_on_error Sym.leaf Sym.pair rrsets "MX" (initial_state Sym.zero) (fun _ => Ptr.null)
      (Or.inl (by simp [find_rrset, rrsets]))⟩

/-! ## Left and right in the proof, carried nodes -/

/-- C11 (left/right convention): for a non-empty record set, a valid leaf index
`i` and a level `L` below the root, with `p = i / 2^L`, `d = level[L][p]` and
`s` the proof entry of level `L`: when `s` is present and `p` is even the
parent `level[L+1][p/2]` is `hash_pair d s`; when `s` is present and `p` is odd
it is `hash_pair s d`; when the entry is absent it is `d` itself. -/
theorem left_right_convention {D : Type} (sha256_hash : String → D) (hash_pair : D → D → D)
    (rrset : RRSet) (h : rrset.records ≠ []) (i : Nat) (hi : i < rrset.records.length)
    (proof_out : Nat → Ptr) :
    ∃ tree proof, build_merkle_tree_levels sha256_hash hash_pair rrset = some tree ∧
      generate_merkle_proof tree (i : Int) proof_out = some proof ∧
      ∀ L, L + 1 < tree.levels_count → ∃ lvl up d, tree.levels[L]? = some lvl ∧
        tree.levels[L + 1]? = some up ∧ lvl[i / 2 ^ L]? = some d ∧
        (proof L = Ptr.null ∨ ∃ s, tree.load (proof L) = some s) ∧
        (∀ s, tree.load (proof L) = some s → (i / 2 ^ L) % 2 = 0 →
          up[i / 2 ^ L / 2]? = some (hash_pair d s)) ∧
        (∀ s, tree.load (proof L) = some s → (i / 2 ^ L) % 2 = 1 →
          up[i / 2 ^ L / 2]? = some (hash_pair s d)) ∧
        (proof L = Ptr.null → up[i / 2 ^ L / 2]? = some d) := by
  obtain ⟨tree, hbuild, hcount, hlen, h0, hlink⟩ := build_spec sha256_hash hash_pair rrset h
  obtain ⟨proof, hgen, _, hent⟩ := generate_spec tree i proof_out (by omega)
  refine ⟨tree, proof, hbuild, hgen, ?_⟩
  intro L hL
  obtain ⟨lvl, hl, hv⟩ := hent L (by omega)
  have hup : tree.levels[L + 1]? = some tree.levels[L + 1] :=
    List.getElem?_eq_getElem (by omega)
  obtain ⟨hclen, hcget⟩ := hlink L lvl _ hl hup
  have hrange : i / 2 ^ L < lvl.length := by
    rw [linked_sizes hash_pair tree.levels _ hlink h0 L lvl hl]
    exact path_in_range L _ i (by simpa using hi)
  obtain ⟨d, hd, hpres, habs⟩ := parent_node hash_pair lvl _ hclen hcget (i / 2 ^ L) hrange
  refine ⟨lvl, _, d, hl, hup, hd, ?_⟩
  by_cases hs : sibling (i / 2 ^ L) < lvl.length
  · obtain ⟨s0, hs0, hpar⟩ := hpres hs
    rw [if_pos hs] at hv
    have hload : tree.load (proof L) = some s0 := by
      rw [hv]
      simp only [MerkleTree.load, node_at_natCast, hl, Option.some_bind]
      exact hs0
    refine ⟨Or.inr ⟨s0, hload⟩, ?_, ?_, ?_⟩
    · intro s hsl heven
      rw [hload] at hsl
      have hss : s0 = s := Option.some.inj hsl
      rw [hpar, if_pos heven, hss]
    · intro s hsl hodd
      rw [hload] at hsl
      have hss : s0 = s := Option.some.inj hsl
      have hne : ¬ (i / 2 ^ L) % 2 = 0 := by omega
      rw [hpar, if_neg hne, hss]
    · intro hnull
      rw [hv] at hnull
      exact Ptr.noConfusion hnull
  · rw [if_neg hs] at hv
    have hload : tree.load (proof L) = none := by
      rw [hv]
      rfl
    refine ⟨Or.inl hv, ?_, ?_, ?_⟩
    · intro s hsl _
      rw [hload] at hsl
      exact Option.noConfusion hsl
    · intro s hsl _
      rw [hload] at hsl
      exact Option.noConfusion hsl
    · intro _
      exact habs hs

/-- Witness of C11: leaf 2 of the record set `AAAA` of `main`. -/
theorem left_right_convention_witness :
    rrset_aaaa.records ≠ [] ∧ 2 < rrset_aaaa.records.length ∧
    ∃ tree proof, build_merkle_tree_levels Sym.leaf Sym.pair rrset_aaaa = some tree ∧
      generate_merkle_proof tree ((2 : Nat) : Int) (fun _ => Ptr.null) = some proof ∧
      ∀ L, L + 1 < tree.levels_count → ∃ lvl up d, tree.levels[L]? = some lvl ∧
        tree.levels[L + 1]? = some up ∧ lvl[2 / 2 ^ L]? = some d ∧
        (proof L = Ptr.null ∨ ∃ s, tree.load (proof L) = some s) ∧
        (∀ s, tree.load (proof L) = some s → (2 / 2 ^ L) % 2 = 0 →
          up[2 / 2 ^ L / 2]? = some (Sym.pair d s)) ∧
        (∀ s, tree.load (proof L) = some s → (2 / 2 ^ L) % 2 = 1 →
          up[2 / 2 ^ L / 2]? = some (Sym.pair s d)) ∧
        (proof L = Ptr.null → up[2 / 2 ^ L / 2]? = some d) :=
  ⟨by simp [rrset_aaaa, aaaa_records], by simp [rrset_aaaa, aaaa_records],
    left_right_convention Sym.leaf Sym.pair rrset_aaaa (by simp [rrset_aaaa, aaaa_records]) 2
      (by simp [rrset_aaaa, aaaa_records]) (fun _ => Ptr.null)⟩

/-- C16 (absent marks the carry case): for a non-empty record set, a valid leaf
index `i` and a level `L` below the root, the proof entry of level `L` is
`NULL` exactly when the running position `i / 2^L` is the last position of
level `L` and that level has odd size, which is exactly when the builder found
no right child for the parent node and carried the node up unchanged. -/
theorem absent_marks_carry {D : Type} (sha256_hash : String → D) (hash_pair : D → D → D)
    (rrset : RRSet) (h : rrset.records ≠ []) (i : Nat) (hi : i < rrset.records.length)
    (proof_out : Nat → Ptr) :
    ∃ tree proof, build_merkle_tree_levels sha256_hash hash_pair rrset = some tree ∧
      generate_merkle_proof tree (i : Int) proof_out = some proof ∧
      ∀ L, L + 1 < tree.levels_count → ∃ lvl up d, tree.levels[L]? = some lvl ∧
        tree.levels[L + 1]? = some up ∧ lvl[i / 2 ^ L]? = some d ∧
        (proof L = Ptr.null ↔ (i / 2 ^ L + 1 = lvl.length ∧ lvl.length % 2 = 1)) ∧
        (proof L = Ptr.null ↔
          (2 * (i / 2 ^ L / 2) = i / 2 ^ L ∧ ¬ 2 * (i / 2 ^ L / 2) + 1 < lvl.length)) ∧
        (proof L = Ptr.null → up[i / 2 ^ L / 2]? = some d) := by
  obtain ⟨tree, hbuild, hcount, hlen, h0, hlink⟩ := build_spec sha256_hash hash_pair rrset h
  obtain ⟨proof, hgen, _, hent⟩ := generate_spec tree i proof_out (by omega)
  refine ⟨tree, proof, hbuild, hgen, ?_⟩
  intro L hL
  obtain ⟨lvl, hl, hv⟩ := hent L (by omega)
  have hup : tree.levels[L + 1]? = some tree.levels[L + 1] :=
    List.getElem?_eq_getElem (by omega)
  obtain ⟨hclen, hcget⟩ := hlink L lvl _ hl hup
  have hrange : i / 2 ^ L < lvl.length := by
    rw [linked_sizes hash_pair tree.levels _ hlink h0 L lvl hl]
    exact path_in_range L _ i (by simpa using hi)
  obtain ⟨d, hd, _, habs⟩ := parent_node hash_pair lvl _ hclen hcget (i / 2 ^ L) hrange
  have hnull : proof L = Ptr.null ↔ ¬ sibling (i / 2 ^ L) < lvl.length := by
    constructor
    · intro hn hs
      rw [if_pos hs, hn] at hv
      exact Ptr.noConfusion hv
    · intro hs
      rw [if_neg hs] at hv
      exact hv
  refine ⟨lvl, _, d, hl, hup, hd, ?_, ?_, ?_⟩
  · rw [hnull]
    generalize i / 2 ^ L = p at hrange
    by_cases hp : p % 2 = 0
    · rw [sibling, if_pos hp]
      omega
    · rw [sibling, if_neg hp]
      omega
  · rw [hnull]
    generalize i / 2 ^ L = p at hrange
    by_cases hp : p % 2 = 0
    · rw [sibling, if_pos hp]
      omega
    · rw [sibling, if_neg hp]
      omega
  · intro hn
    exact habs (hnull.mp hn)

/-- Witness of C16: leaf 4 of the record set `A` of `main`. -/
theorem absent_marks_carry_witness :
    rrset_a.records ≠ [] ∧ 4 < rrset_a.records.length ∧
    ∃ tree proof, build_merkle_tree_levels Sym.leaf Sym.pair rrset_a = some tree ∧
      generate_merkle_proof tree ((4 : Nat) : Int) (fun _ => Ptr.null) = some proof ∧
      ∀ L, L + 1 < tree.levels_count → ∃ lvl up d, tree.levels[L]? = some lvl ∧
        tree.levels[L + 1]? = some up ∧ lvl[4 / 2 ^ L]? = some d ∧
        (proof L = Ptr.null ↔ (4 / 2 ^ L + 1 = lvl.length ∧ lvl.length % 2 = 1)) ∧
        (proof L = Ptr.null ↔
          (2 * (4 / 2 ^ L / 2) = 4 / 2 ^ L ∧ ¬ 2 * (4 / 2 ^ L / 2) + 1 < lvl.length)) ∧
        (proof L = Ptr.null → up[4 / 2 ^ L / 2]? = some d) :=
  ⟨by simp [rrset_a, a_records], by simp [rrset_a, a_records],
    absent_marks_carry Sym.leaf Sym.pair rrset_a (by simp [rrset_a, a_records]) 4
      (by simp [rrset_a, a_records]) (fun _ => Ptr.null)⟩

theorem last_carried {D : Type} (hash_pair : D → D → D) (levels : List (List D))
    (hlink : Linked hash_pair levels) :
    ∀ (j : Nat) (level0 lvl : List D), levels[0]? = some level0 → levels[j]? = some lvl →
      (∀ k l, k < j → levels[k]? = some l → l.length % 2 = 1) →
      lvl.getLast? = level0.getLast? := by
  intro j
  induction j with
  | zero =>
    intro level0 lvl h0 hl _
    rw [h0] at hl
    rw [Option.some.inj hl]
  | succ j ih =>
    intro level0 lvl h0 hl hodd
    have hj : j < levels.length := by
      by_contra hge
      rw [List.getElem?_eq_none (by omega)] at hl
      exact Option.noConfusion hl
    have hprev : levels[j]? = some levels[j] := List.getElem?_eq_getElem hj
    obtain ⟨hlen, hget⟩ := hlink j _ lvl hprev hl
    have hs : (levels[j]).length % 2 = 1 := hodd j _ (by omega) hprev
    rw [← ih level0 _ h0 hprev (fun k l hk hkl => hodd k l (by omega) hkl)]
    rw [List.getLast?_eq_getElem?, List.getLast?_eq_getElem?, hget _ (by omega)]
    unfold build_node
    have h1 : 2 * (lvl.length - 1) = (levels[j]).length - 1 := by omega
    have h2 : ¬ (levels[j]).length - 1 + 1 < (levels[j]).length := by omega
    simp only [h1]
    rw [if_neg h2]

/-! ## Concrete shapes: three and five records -/

/-- C12 (odd-count carry, three leaves): for a record set of exactly three
records with leaf digests `L0, L1, L2`, the built tree has three levels, level
1 is `[hash_pair L0 L1, L2]` with `L2` unchanged, and the root is
`hash_pair (hash_pair L0 L1) L2`. -/
theorem three_leaves {D : Type} (sha256_hash : String → D) (hash_pair : D → D → D)
    (rrset : RRSet) (r0 r1 r2 : RRRecord) (h : rrset.records = [r0, r1, r2]) :
    ∃ tree, build_merkle_tree_levels sha256_hash hash_pair rrset = some tree ∧
      tree.levels_count = 3 ∧
      tree.levels =
        [[sha256_hash r0.data, sha256_hash r1.data, sha256_hash r2.data],
         [hash_pair (sha256_hash r0.data) (sha256_hash r1.data), sha256_hash r2.data],
         [hash_pair (hash_pair (sha256_hash r0.data) (sha256_hash r1.data))
            (sha256_hash r2.data)]] := by
  simp [build_merkle_tree_levels, h, RRSet.count, max_levels, halving_loop, for_fill, leaf_node,
    build_upper_levels, build_node]

/-- Witness of C12: the record set `AAAA` of `main`. -/
theorem three_leaves_witness :
    rrset_aaaa.records =
      [⟨"aiori.in. 3600 IN AAAA 2001:db8::1"⟩, ⟨"aiori.in. 3600 IN AAAA 2001:db8::2"⟩,
       ⟨"aiori.in. 3600 IN AAAA 2001:db8::3"⟩] ∧
    ∃ tree, build_merkle_tree_levels Sym.leaf Sym.pair rrset_aaaa = some tree ∧
      tree.levels_count = 3 ∧
      tree.levels =
        [[Sym.leaf "aiori.in. 3600 IN AAAA 2001:db8::1",
          Sym.leaf "aiori.in. 3600 IN AAAA 2001:db8::2",
          Sym.leaf "aiori.in. 3600 IN AAAA 2001:db8::3"],
         [Sym.pair (Sym.leaf "aiori.in. 3600 IN AAAA 2001:db8::1")
            (Sym.leaf "aiori.in. 3600 IN AAAA 2001:db8::2"),
          Sym.leaf "aiori.in. 3600 IN AAAA 2001:db8::3"],
         [Sym.pair
            (Sym.pair (Sym.leaf "aiori.in. 3600 IN AAAA 2001:db8::1")
              (Sym.leaf "aiori.in. 3600 IN AAAA 2001:db8::2"))
            (Sym.leaf "aiori.in. 3600 IN AAAA 2001:db8::3")]] :=
  ⟨rfl, three_leaves Sym.leaf Sym.pair rrset_aaaa _ _ _ rfl⟩

/-- C17 (carry propagation): for a non-empty record set and a level `j` of its
tree, if all of the levels `0 .. j-1` have odd size then the last digest of
level `j` is `sha256_hash` of the last record, unmodified.  With five records
the level sizes are 5, 3, 2, 1, the fifth leaf digest `L4` ends levels 1 and 2,
and the root is `hash_pair (hash_pair (hash_pair L0 L1) (hash_pair L2 L3)) L4`. -/
theorem carry_propagation {D : Type} (sha256_hash : String → D) (hash_pair : D → D → D)
    (rrset : RRSet) (h : rrset.records ≠ []) :
    ∃ tree, build_merkle_tree_levels sha256_hash hash_pair rrset = some tree ∧
      (∀ (j : Nat) (lvl : List D) (r : RRRecord), tree.levels[j]? = some lvl →
        (∀ k l, k < j → tree.levels[k]? = some l → l.length % 2 = 1) →
        rrset.records.getLast? = some r → lvl.getLast? = some (sha256_hash r.data)) ∧
      ∀ r0 r1 r2 r3 r4 : RRRecord, rrset.records = [r0, r1, r2, r3, r4] →
        tree.levels =
          [[sha256_hash r0.data, sha256_hash r1.data, sha256_hash r2.data,
            sha256_hash r3.data, sha256_hash r4.data],
           [hash_pair (sha256_hash r0.data) (sha256_hash r1.data),
            hash_pair (sha256_hash r2.data) (sha256_hash r3.data), sha256_hash r4.data],
           [hash_pair (hash_pair (sha256_hash r0.data) (sha256_hash r1.data))
              (hash_pair (sha256_hash r2.data) (sha256_hash r3.data)),
            sha256_hash r4.data],
           [hash_pair
              (hash_pair (hash_pair (sha256_hash r0.data) (sha256_hash r1.data))
                (hash_pair (sha256_hash r2.data) (sha256_hash r3.data)))
              (sha256_hash r4.data)]] := by
  obtain ⟨tree, hbuild, hcount, hlen, h0, hlink⟩ := build_spec sha256_hash hash_pair rrset h
  refine ⟨tree, hbuild, ?_, ?_⟩
  · intro j lvl r hl hodd hlast
    rw [last_carried hash_pair tree.levels hlink j _ lvl h0 hl hodd, List.getLast?_map, hlast]
    rfl
  · intro r0 r1 r2 r3 r4 hrec
    have hb : build_merkle_tree_levels sha256_hash hash_pair rrset = some
        ⟨[[sha256_hash r0.data, sha256_hash r1.data, sha256_hash r2.data,
            sha256_hash r3.data, sha256_hash r4.data],
           [hash_pair (sha256_hash r0.data) (sha256_hash r1.data),
            hash_pair (sha256_hash r2.data) (sha256_hash r3.data), sha256_hash r4.data],
           [hash_pair (hash_pair (sha256_hash r0.data) (sha256_hash r1.data))
              (hash_pair (sha256_hash r2.data) (sha256_hash r3.data)),
            sha256_hash r4.data],
           [hash_pair
              (hash_pair (hash_pair (sha256_hash r0.data) (sha256_hash r1.data))
                (hash_pair (sha256_hash r2.data) (sha256_hash r3.data)))
              (sha256_hash r4.data)]], 4⟩ := by
      simp [build_merkle_tree_levels, hrec, RRSet.count, max_levels, halving_loop, for_fill,
        leaf_node, build_upper_levels, build_node]
    rw [hbuild] at hb
    rw [Option.some.inj hb]

/-- Witness of C17: the record set `A` of `main`, which has five records. -/
theorem carry_propagation_witness :
    rrset_a.records ≠ [] ∧
    ∃ tree, build_merkle_tree_levels Sym.leaf Sym.pair rrset_a = some tree ∧
      (∀ (j : Nat) (lvl : List Sym) (r : RRRecord), tree.levels[j]? = some lvl →
        (∀ k l, k < j → tree.levels[k]? = some l → l.length % 2 = 1) →
        rrset_a.records.getLast? = some r → lvl.getLast? = some (Sym.leaf r.data)) ∧
      tree.levels =
        [[Sym.leaf "aiori.in. 3600 IN A 192.0.2.1", Sym.leaf "aiori.in. 3600 IN A 192.0.2.2",
          Sym.leaf "aiori.in. 3600 IN A 192.0.2.3", Sym.leaf "aiori.in. 3600 IN A 192.0.2.4",
          Sym.leaf "aiori.in. 3600 IN A 192.0.2.5"],
         [Sym.pair (Sym.leaf "aiori.in. 3600 IN A 192.0.2.1")
            (Sym.leaf "aiori.in. 3600 IN A 192.0.2.2"),
          Sym.pair (Sym.leaf "aiori.in. 3600 IN A 192.0.2.3")
            (Sym.leaf "aiori.in. 3600 IN A 192.0.2.4"),
          Sym.leaf "aiori.in. 3600 IN A 192.0.2.5"],
         [Sym.pair
            (Sym.pair (Sym.leaf "aiori.in. 3600 IN A 192.0.2.1")
              (Sym.leaf "aiori.in. 3600 IN A 192.0.2.2"))
            (Sym.pair (Sym.leaf "aiori.in. 3600 IN A 192.0.2.3")
              (Sym.leaf "aiori.in. 3600 IN A 192.0.2.4")),
          Sym.leaf "aiori.in. 3600 IN A 192.0.2.5"],
         [Sym.pair
            (Sym.pair
              (Sym.pair (Sym.leaf "aiori.in. 3600 IN A 192.0.2.1")
                (Sym.leaf "aiori.in. 3600 IN A 192.0.2.2"))
              (Sym.pair (Sym.leaf "aiori.in. 3600 IN A 192.0.2.3")
                (Sym.leaf "aiori.in. 3600 IN A 192.0.2.4")))
            (Sym.leaf "aiori.in. 3600 IN A 192.0.2.5")]] := by
  have hne : rrset_a.records ≠ [] := by simp [rrset_a, a_records]
  obtain ⟨tree, hb, hgen, hfive⟩ := carry_propagation Sym.leaf Sym.pair rrset_a hne
  exact ⟨hne, tree, hb, hgen, hfive _ _ _ _ _ rfl⟩

/-! ## Indices stay inside their level -/

theorem halve_iterate_le_iff : ∀ (L n m : Nat), halve^[L] n ≤ m ↔ n ≤ m * 2 ^ L := by
  intro L
  induction L with
  | zero => intro n m; simp
  | succ L ih =>
    intro n m
    rw [Function.iterate_succ_apply']
    have h1 : halve (halve^[L] n) ≤ m ↔ halve^[L] n ≤ 2 * m := by
      generalize halve^[L] n = x
      unfold halve
      omega
    rw [h1, ih, pow_succ]
    constructor <;> intro hle <;> nlinarith [hle]

theorem halving_count_least (n : Nat) (hn : 1 ≤ n) :
    n ≤ 2 ^ halving_loop n 0 ∧ ∀ m, n ≤ 2 ^ m → halving_loop n 0 ≤ m := by
  obtain ⟨c, hc, hone, hbig⟩ := halving_loop_spec n 0 hn
  rw [hc, Nat.zero_add]
  constructor
  · have h1 := (halve_iterate_le_iff c n 1).mp (le_of_eq hone)
    simpa using h1
  · intro m hm
    by_contra hlt
    have h2 := hbig m (by omega)
    have h3 := (halve_iterate_le_iff m n 1).mpr (by simpa using hm)
    omega

theorem halve_iterate_pow (k : Nat) : ∀ L, L ≤ k → halve^[L] (2 ^ k) = 2 ^ (k - L) := by
  intro L
  induction L with
  | zero => intro _; simp
  | succ L ih =>
    intro hL
    rw [Function.iterate_succ_apply', ih (by omega)]
    have h1 : 2 ^ (k - L) = 2 * 2 ^ (k - (L + 1)) := by
      rw [← pow_succ']
      congr 1
      omega
    rw [h1]
    unfold halve
    omega

theorem halving_count_pow (k : Nat) : halving_loop (2 ^ k) 0 = k := by
  obtain ⟨hle, hleast⟩ := halving_count_least (2 ^ k) (Nat.one_le_two_pow)
  apply le_antisymm
  · exact hleast k (le_refl _)
  · exact (Nat.pow_le_pow_iff_right (by omega)).mp hle

theorem all_even_pow : ∀ (c n : Nat), (∀ L, L < c → halve^[L] n % 2 = 0) →
    n = 2 ^ c * halve^[c] n := by
  intro c
  induction c with
  | zero => intro n _; simp
  | succ c ih =>
    intro n hev
    have h0 : n % 2 = 0 := by simpa using hev 0 (by omega)
    have h1 : halve n = 2 ^ c * halve^[c] (halve n) := by
      apply ih
      intro L hL
      have := hev (L + 1) (by omega)
      rwa [Function.iterate_succ_apply] at this
    have h2 : n = halve n * 2 := by
      unfold halve
      omega
    rw [Function.iterate_succ_apply, pow_succ]
    calc n = halve n * 2 := h2
      _ = 2 ^ c * halve^[c] (halve n) * 2 := by rw [← h1]
      _ = 2 ^ c * 2 * halve^[c] (halve n) := by ring

theorem last_position (n : Nat) (hn : 1 ≤ n) : ∀ L, (n - 1) / 2 ^ L + 1 = halve^[L] n := by
  intro L
  induction L with
  | zero => simp; omega
  | succ L ih =>
    rw [Function.iterate_succ_apply', pow_succ, ← Nat.div_div_eq_div_mul, ← ih]
    generalize (n - 1) / 2 ^ L = p
    unfold halve
    omega

/-! ## Level count and powers of two -/

/-- C20 (no carry for power-of-two counts): for a record set of `2^k` records
the tree has `k + 1` levels, every node above level 0 is the `hash_pair` of its
two children, and for every valid leaf index each of the `k` proof entries is
present; for a non-empty record set whose size is not a power of two, the proof
of the last leaf has at least one absent entry. -/
theorem power_of_two_no_carry {D : Type} (sha256_hash : String → D) (hash_pair : D → D → D)
    (rrset : RRSet) (h : rrset.records ≠ []) :
    ∃ tree, build_merkle_tree_levels sha256_hash hash_pair rrset = some tree ∧
      (∀ k, rrset.records.length = 2 ^ k →
        tree.levels_count = k + 1 ∧
        (∀ j prev curr, tree.levels[j]? = some prev → tree.levels[j + 1]? = some curr →
          ∀ i, i < curr.length → ∃ left right, prev[2 * i]? = some left ∧
            prev[2 * i + 1]? = some right ∧ curr[i]? = some (hash_pair left right)) ∧
        ∀ (i : Nat) (proof_out : Nat → Ptr), i < rrset.records.length →
          ∃ proof, generate_merkle_proof tree (i : Int) proof_out = some proof ∧
            ∀ L, L < k → ∃ q s, proof L = Ptr.node L q ∧ tree.load (proof L) = some s) ∧
      ((∀ k, rrset.records.length ≠ 2 ^ k) → ∀ proof_out : Nat → Ptr,
        ∃ proof, generate_merkle_proof tree ((rrset.records.length - 1 : Nat) : Int)
            proof_out = some proof ∧
          ∃ L, L + 1 < tree.levels_count ∧ proof L = Ptr.null) := by
  obtain ⟨tree, hbuild, hcount, hlen, h0, hlink⟩ := build_spec sha256_hash hash_pair rrset h
  have hn : 1 ≤ rrset.records.length := List.length_pos.mpr h
  have hsize : ∀ L lvl, tree.levels[L]? = some lvl →
      lvl.length = halve^[L] rrset.records.length := by
    intro L lvl hl
    rw [linked_sizes hash_pair tree.levels _ hlink h0 L lvl hl, List.length_map]
  refine ⟨tree, hbuild, ?_, ?_⟩
  · intro k hk
    have hck : tree.levels_count = k + 1 := by
      rw [hcount, max_levels, hk, halving_count_pow]
    have heven : ∀ L lvl, L < k → tree.levels[L]? = some lvl → lvl.length % 2 = 0 := by
      intro L lvl hL hl
      rw [hsize L lvl hl, hk, halve_iterate_pow k L (by omega)]
      have h1 : 2 ^ (k - L) = 2 * 2 ^ (k - L - 1) := by
        rw [← pow_succ']
        congr 1
        omega
      omega
    refine ⟨hck, ?_, ?_⟩
    · intro j prev curr hp hc i hi
      obtain ⟨hclen, hcget⟩ := hlink j prev curr hp hc
      have hj : j < k := by
        by_contra hge
        rw [List.getElem?_eq_none (by omega)] at hc
        exact Option.noConfusion hc
      have hev := heven j prev hj hp
      have hl : 2 * i < prev.length := by omega
      have hr : 2 * i + 1 < prev.length := by omega
      refine ⟨prev[2 * i], prev[2 * i + 1], List.getElem?_eq_getElem hl,
        List.getElem?_eq_getElem hr, ?_⟩
      rw [hcget i hi]
      simp [build_node, hr, List.getElem?_eq_getElem hl, List.getElem?_eq_getElem hr]
    · intro i proof_out hi
      obtain ⟨proof, hgen, _, hent⟩ := generate_spec tree i proof_out (by omega)
      refine ⟨proof, hgen, ?_⟩
      intro L hL
      obtain ⟨lvl, hl, hv⟩ := hent L (by omega)
      have hev := heven L lvl hL hl
      have hrange : i / 2 ^ L < lvl.length := by
        rw [hsize L lvl hl]
        exact path_in_range L _ i hi
      have hs : sibling (i / 2 ^ L) < lvl.length := by
        generalize i / 2 ^ L = p at hrange
        unfold sibling
        split <;> omega
      rw [if_pos hs] at hv
      refine ⟨_, lvl[sibling (i / 2 ^ L)], hv, ?_⟩
      rw [hv]
      simp only [MerkleTree.load, node_at_natCast, hl, Option.some_bind]
      exact List.getElem?_eq_getElem hs
  · intro hnot proof_out
    obtain ⟨proof, hgen, _, hent⟩ :=
      generate_spec tree (rrset.records.length - 1) proof_out (by omega)
    refine ⟨proof, hgen, ?_⟩
    by_contra hall
    obtain ⟨c, hc, hone, _⟩ := halving_loop_spec rrset.records.length 0 hn
    have hck : tree.levels_count = c + 1 := by
      rw [hcount, max_levels, hc]
      omega
    have hev : ∀ L, L < c → halve^[L] rrset.records.length % 2 = 0 := by
      intro L hL
      obtain ⟨lvl, hl, hv⟩ := hent L (by omega)
      have hs : sibling ((rrset.records.length - 1) / 2 ^ L) < lvl.length := by
        by_contra hns
        rw [if_neg hns] at hv
        exact hall ⟨L, by omega, hv⟩
      have hpos := last_position rrset.records.length hn L
      rw [← hsize L lvl hl] at hpos ⊢
      generalize (rrset.records.length - 1) / 2 ^ L = p at hs hpos
      unfold sibling at hs
      split at hs <;> omega
    have hpow := all_even_pow c rrset.records.length hev
    rw [hone, mul_one] at hpow
    exact hnot c hpow

/-- Witness of C20: the record set `A` of `main`, whose five records are not a
power of two, and a record set of four records. -/
theorem power_of_two_no_carry_witness :
    (rrset_a.records ≠ [] ∧ (∀ k, rrset_a.records.length ≠ 2 ^ k) ∧
      ∃ tree proof, build_merkle_tree_levels Sym.leaf Sym.pair rrset_a = some tree ∧
        generate_merkle_proof tree ((rrset_a.records.length - 1 : Nat) : Int)
          (fun _ => Ptr.null) = some proof ∧
        ∃ L, L + 1 < tree.levels_count ∧ proof L = Ptr.null) ∧
    (rrset_four.records ≠ [] ∧ rrset_four.records.length = 2 ^ 2 ∧
      ∃ tree, build_merkle_tree_levels Sym.leaf Sym.pair rrset_four = some tree ∧
        tree.levels_count = 2 + 1 ∧
        (∀ j prev curr, tree.levels[j]? = some prev → tree.levels[j + 1]? = some curr →
          ∀ i, i < curr.length → ∃ left right, prev[2 * i]? = some left ∧
            prev[2 * i + 1]? = some right ∧ curr[i]? = some (Sym.pair left right)) ∧
        ∀ (i : Nat) (proof_out : Nat → Ptr), i < rrset_four.records.length →
          ∃ proof, generate_merkle_proof tree (i : Int) proof_out = some proof ∧
            ∀ L, L < 2 → ∃ q s, proof L = Ptr.node L q ∧ tree.load (proof L) = some s) := by
  have hne : rrset_a.records ≠ [] := by simp [rrset_a, a_records]
  have hnot : ∀ k, rrset_a.records.length ≠ 2 ^ k := by
    intro k hk
    have h5 : rrset_a.records.length = 5 := rfl
    rw [h5] at hk
    have hlt : k < 3 := by
      by_contra hge
      have h8 : 2 ^ 3 ≤ 2 ^ k := Nat.pow_le_pow_right (by omega) (by omega)
      omega
    interval_cases k <;> omega
  have hne4 : rrset_four.records ≠ [] := by simp [rrset_four]
  obtain ⟨tree, hb, _, hconv⟩ := power_of_two_no_carry Sym.leaf Sym.pair rrset_a hne
  obtain ⟨proof, hg, hL⟩ := hconv hnot (fun _ => Ptr.null)
  obtain ⟨tree4, hb4, hpow, _⟩ := power_of_two_no_carry Sym.leaf Sym.pair rrset_four hne4
  exact ⟨⟨hne, hnot, tree, proof, hb, hg, hL⟩, hne4, rfl, tree4, hb4, hpow 2 rfl⟩

/-! ## Auxiliary facts: one query and sequences of queries -/

theorem find_rrset_some : ∀ (rrsets : List RRSet) (query_type : String) (i j : Nat),
    find_rrset rrsets query_type i = some j →
      i ≤ j ∧ ∃ rrset, rrsets[j - i]? = some rrset ∧ rrset.type = query_type := by
  intro rrsets
  induction rrsets with
  | nil =>
    intro q i j hfind
    simp [find_rrset] at hfind
  | cons rrset rest ih =>
    intro q i j hfind
    simp only [find_rrset] at hfind
    by_cases ht : rrset.type = q
    · rw [if_pos ht] at hfind
      have hij : i = j := Option.some.inj hfind
      subst hij
      exact ⟨le_refl _, rrset, by simp, ht⟩
    · rw [if_neg ht] at hfind
      obtain ⟨hle, r, hr, hrt⟩ := ih q (i + 1) j hfind
      refine ⟨by omega, r, ?_, hrt⟩
      have hji : j - i = (j - (i + 1)) + 1 := by omega
      rw [hji, List.getElem?_cons_succ]
      exact hr

theorem query_step_spec {D : Type} (sha256_hash : String → D) (hash_pair : D → D → D)
    (rrsets : List RRSet) (query_type : String) (st : QueryState D) (stack : Nat → Ptr) :
    ∃ out st1, query_rrset sha256_hash hash_pair rrsets query_type st stack = some (out, st1) ∧
      (∀ j, (∀ R, query_root sha256_hash hash_pair rrsets query_type ≠ some (j, R)) →
        st1.prev_roots j = st.prev_roots j) ∧
      (∀ j R, query_root sha256_hash hash_pair rrsets query_type = some (j, R) →
        st1 = ⟨Function.update st.prev_roots j R, R⟩ ∧
        ∃ proof, out = QueryOutput.answer R (hash_pair R (st.prev_roots j)) R proof) ∧
      (query_root sha256_hash hash_pair rrsets query_type = none →
        st1 = st ∧ (out = QueryOutput.not_found ∨ out = QueryOutput.empty_rrset)) := by
  cases hfind : find_rrset rrsets query_type 0 with
  | none =>
    have hroot : query_root sha256_hash hash_pair rrsets query_type = none := by
      simp [query_root, hfind]
    refine ⟨QueryOutput.not_found, st, by simp only [query_rrset, hfind], ?_, ?_, ?_⟩
    · intro j _
      rfl
    · intro j R hR
      rw [hroot] at hR
      exact Option.noConfusion hR
    · intro _
      exact ⟨rfl, Or.inl rfl⟩
  | some j0 =>
    obtain ⟨_, rrset, hget, _⟩ := find_rrset_some rrsets query_type 0 j0 hfind
    rw [Nat.sub_zero] at hget
    by_cases hempty : rrset.records = []
    · have hroot : query_root sha256_hash hash_pair rrsets query_type = none := by
        simp [query_root, hfind, hget, hempty]
      have hbuild : build_merkle_tree_levels sha256_hash hash_pair rrset = some ⟨[], 0⟩ := by
        simp [build_merkle_tree_levels, RRSet.count, hempty]
      refine ⟨QueryOutput.empty_rrset, st, ?_, ?_, ?_, ?_⟩
      · simp only [query_rrset, hfind, hget, Option.some_bind, hbuild, if_true]
      · intro j _
        rfl
      · intro j R hR
        rw [hroot] at hR
        exact Option.noConfusion hR
      · intro _
        exact ⟨rfl, Or.inr rfl⟩
    · obtain ⟨tree, root, proof, hbuild, hlast, hq⟩ :=
        query_answer sha256_hash hash_pair rrsets query_type st stack j0 rrset hfind hget hempty
      have hroot : query_root sha256_hash hash_pair rrsets query_type = some (j0, root) := by
        simp [query_root, hfind, hget, hempty, hbuild, MerkleTree.node_at, hlast]
      refine ⟨_, _, hq, ?_, ?_, ?_⟩
      · intro j hj
        have hne : j ≠ j0 := by
          intro hjj
          exact hj root (by rw [hjj]; exact hroot)
        simp [Function.update, hne]
      · intro j R hR
        rw [hroot] at hR
        have hpair : (j0, root) = (j, R) := Option.some.inj hR
        have hj : j0 = j := congrArg Prod.fst hpair
        have hr : root = R := congrArg Prod.snd hpair
        subst hj
        subst hr
        exact ⟨rfl, proof, rfl⟩
      · intro hnone
        rw [hroot] at hnone
        exact Option.noConfusion hnone

theorem succeeds_at_zero {D : Type} (sha256_hash : String → D) (hash_pair : D → D → D)
    (rrsets : List RRSet) (query_type : String) (rest : List (List RRSet × String))
    (j : Nat) (R : D) :
    succeeds_at sha256_hash hash_pair ((rrsets, query_type) :: rest) 0 j R ↔
      query_root sha256_hash hash_pair rrsets query_type = some (j, R) := by
  constructor
  · rintro ⟨rr, q, hget, hroot⟩
    simp only [List.getElem?_cons_zero, Option.some.injEq, Prod.mk.injEq] at hget
    rw [hget.1, hget.2]
    exact hroot
  · intro hroot
    exact ⟨rrsets, query_type, by simp, hroot⟩

theorem succeeds_at_succ {D : Type} (sha256_hash : String → D) (hash_pair : D → D → D)
    (x : List RRSet × String) (rest : List (List RRSet × String)) (k j : Nat) (R : D) :
    succeeds_at sha256_hash hash_pair (x :: rest) (k + 1) j R ↔
      succeeds_at sha256_hash hash_pair rest k j R := by
  simp only [succeeds_at, List.getElem?_cons_succ]

theorem run_queries_spec {D : Type} (sha256_hash : String → D) (hash_pair : D → D → D)
    (stack : Nat → Ptr) :
    ∀ (queries : List (List RRSet × String)) (st0 : QueryState D),
      ∃ outs st, run_queries sha256_hash hash_pair queries st0 stack = some (outs, st) ∧
        outs.length = queries.length ∧
        (∀ j, (∀ k R, ¬ succeeds_at sha256_hash hash_pair queries k j R) →
          st.prev_roots j = st0.prev_roots j) ∧
        (∀ j k R, succeeds_at sha256_hash hash_pair queries k j R →
          (∀ k2 R2, k < k2 → ¬ succeeds_at sha256_hash hash_pair queries k2 j R2) →
          st.prev_roots j = R) ∧
        (∀ j k R, succeeds_at sha256_hash hash_pair queries k j R →
          (∀ k1 R1, k1 < k → ¬ succeeds_at sha256_hash hash_pair queries k1 j R1) →
          ∃ proof, outs[k]? =
            some (QueryOutput.answer R (hash_pair R (st0.prev_roots j)) R proof)) ∧
        (∀ (k : Nat) (rrsets : List RRSet) (query_type : String),
          queries[k]? = some (rrsets, query_type) →
          query_root sha256_hash hash_pair rrsets query_type = none →
          outs[k]? = some QueryOutput.not_found ∨ outs[k]? = some QueryOutput.empty_rrset) := by
  intro queries
  induction queries with
  | nil =>
    intro st0
    refine ⟨[], st0, rfl, rfl, fun _ _ => rfl, ?_, ?_, ?_⟩
    · rintro j k R ⟨rr, q, hget, _⟩ _
      simp at hget
    · rintro j k R ⟨rr, q, hget, _⟩ _
      simp at hget
    · intro k rr q hget _
      simp at hget
  | cons x rest ih =>
    intro st0
    obtain ⟨rrsets, query_type⟩ := x
    obtain ⟨out, st1, hq, hframe, hsucc, hfail⟩ :=
      query_step_spec sha256_hash hash_pair rrsets query_type st0 stack
    obtain ⟨outs, st, hrun, hlen, hA, hB, hC, hD⟩ := ih st1
    have hhead : ∀ j, (∀ R, ¬ succeeds_at sha256_hash hash_pair
        ((rrsets, query_type) :: rest) 0 j R) → st1.prev_roots j = st0.prev_roots j := by
      intro j hno
      apply hframe j
      intro R hR
      exact hno R ((succeeds_at_zero sha256_hash hash_pair rrsets query_type rest j R).mpr hR)
    refine ⟨out :: outs, st, ?_, by simp [hlen], ?_, ?_, ?_, ?_⟩
    · simp only [run_queries, hq, Option.some_bind, hrun, Option.map_some']
    · intro j hno
      rw [hA j (fun k R hk => hno (k + 1) R
        ((succeeds_at_succ sha256_hash hash_pair _ rest k j R).mpr hk))]
      exact hhead j (fun R => hno 0 R)
    · intro j k R hk hlater
      cases k with
      | zero =>
        rw [hA j (fun k2 R2 hk2 => hlater (k2 + 1) R2 (by omega)
          ((succeeds_at_succ sha256_hash hash_pair _ rest k2 j R2).mpr hk2))]
        have hroot := (succeeds_at_zero sha256_hash hash_pair rrsets query_type rest j R).mp hk
        rw [(hsucc j R hroot).1]
        simp
      | succ k =>
        apply hB j k R ((succeeds_at_succ sha256_hash hash_pair _ rest k j R).mp hk)
        intro k2 R2 hlt hk2
        exact hlater (k2 + 1) R2 (by omega)
          ((succeeds_at_succ sha256_hash hash_pair _ rest k2 j R2).mpr hk2)
    · intro j k R hk hearlier
      cases k with
      | zero =>
        have hroot := (succeeds_at_zero sha256_hash hash_pair rrsets query_type rest j R).mp hk
        obtain ⟨proof, hout⟩ := (hsucc j R hroot).2
        exact ⟨proof, by simp [hout]⟩
      | succ k =>
        obtain ⟨proof, hout⟩ := hC j k R
          ((succeeds_at_succ sha256_hash hash_pair _ rest k j R).mp hk)
          (fun k1 R1 hlt hk1 => hearlier (k1 + 1) R1 (by omega)
            ((succeeds_at_succ sha256_hash hash_pair _ rest k1 j R1).mpr hk1))
        refine ⟨proof, ?_⟩
        rw [List.getElem?_cons_succ, hout, hhead j (fun R1 => hearlier 0 R1 (by omega))]
    · intro k rr q hget hnone
      cases k with
      | zero =>
        simp only [List.getElem?_cons_zero, Option.some.injEq, Prod.mk.injEq] at hget
        rw [← hget.1, ← hget.2] at hnone
        rcases (hfail hnone).2 with ho | ho
        · exact Or.inl (by simp [ho])
        · exact Or.inr (by simp [ho])
      | succ k =>
        rw [List.getElem?_cons_succ] at hget ⊢
        exact hD k rr q hget hnone

theorem build_congr {D : Type} (sha256_hash : String → D) (hash_pair : D → D → D)
    (rrset rrset2 : RRSet) (hrec : rrset2.records = rrset.records) :
    build_merkle_tree_levels sha256_hash hash_pair rrset2 =
      build_merkle_tree_levels sha256_hash hash_pair rrset := by
  simp only [build_merkle_tree_levels, RRSet.count, hrec]

theorem query_root_of {D : Type} (sha256_hash : String → D) (hash_pair : D → D → D)
    (rrsets : List RRSet) (query_type : String) (j : Nat) (rrset : RRSet)
    (levels : List (List D)) (count : Nat) (R : D)
    (hfind : find_rrset rrsets query_type 0 = some j) (hget : rrsets[j]? = some rrset)
    (hne : rrset.records ≠ [])
    (hbuild : build_merkle_tree_levels sha256_hash hash_pair rrset = some ⟨levels, count⟩)
    (hlast : levels[count - 1]? = some [R]) :
    query_root sha256_hash hash_pair rrsets query_type = some (j, R) := by
  simp [query_root, hfind, hget, hne, hbuild, MerkleTree.node_at, hlast]

theorem query_root_aaaa :
    query_root Sym.leaf Sym.pair rrsets "AAAA" = some (1, root_aaaa) := by
  apply query_root_of Sym.leaf Sym.pair rrsets "AAAA" 1 rrset_aaaa _ 3 root_aaaa
    (by simp [find_rrset, rrsets]) rfl (by simp [rrset_aaaa, aaaa_records])
  · simp [build_merkle_tree_levels, rrset_aaaa, aaaa_records, RRSet.count, max_levels,
      halving_loop, for_fill, leaf_node, build_upper_levels, build_node]
    rfl
  · rfl

theorem query_root_aaaa_changed :
    query_root Sym.leaf Sym.pair rrsets_changed "AAAA" = some (1, root_aaaa_changed) := by
  apply query_root_of Sym.leaf Sym.pair rrsets_changed "AAAA" 1 rrset_aaaa_changed _ 3
    root_aaaa_changed (by simp [find_rrset, rrsets_changed, rrset_aaaa_changed]) rfl
    (by simp [rrset_aaaa_changed])
  · simp [build_merkle_tree_levels, rrset_aaaa_changed, RRSet.count, max_levels,
      halving_loop, for_fill, leaf_node, build_upper_levels, build_node]
    rfl
  · rfl

/-! ## Chaining across queries -/

/-- C13 (chaining, three-query trace): from the zeroed `prev_roots` table of
`main`, the first query of a record set at position `j` with root `R1` reports
the signature `hash_pair R1 zero32` and stores `R1`; a second query with the
same root reports `hash_pair R1 R1`; a third query, made after the record set
has changed to root `R2`, reports `hash_pair R2 R1` and stores `R2`. -/
theorem chaining_trace {D : Type} (sha256_hash : String → D) (hash_pair : D → D → D)
    (zero32 : D) (rrsets1 rrsets2 : List RRSet) (query_type : String) (stack : Nat → Ptr)
    (j : Nat) (R1 R2 : D)
    (h1 : query_root sha256_hash hash_pair rrsets1 query_type = some (j, R1))
    (h2 : query_root sha256_hash hash_pair rrsets2 query_type = some (j, R2)) :
    ∃ p1 st1 p2 st2 p3 st3,
      query_rrset sha256_hash hash_pair rrsets1 query_type (initial_state zero32) stack =
        some (QueryOutput.answer R1 (hash_pair R1 zero32) R1 p1, st1) ∧
      st1.prev_roots j = R1 ∧
      query_rrset sha256_hash hash_pair rrsets1 query_type st1 stack =
        some (QueryOutput.answer R1 (hash_pair R1 R1) R1 p2, st2) ∧
      st2.prev_roots j = R1 ∧
      query_rrset sha256_hash hash_pair rrsets2 query_type st2 stack =
        some (QueryOutput.answer R2 (hash_pair R2 R1) R2 p3, st3) ∧
      st3.prev_roots j = R2 := by
  obtain ⟨out1, st1, hq1, _, hs1, _⟩ :=
    query_step_spec sha256_hash hash_pair rrsets1 query_type (initial_state zero32) stack
  obtain ⟨hst1, p1, ho1⟩ := hs1 j R1 h1
  obtain ⟨out2, st2, hq2, _, hs2, _⟩ :=
    query_step_spec sha256_hash hash_pair rrsets1 query_type st1 stack
  obtain ⟨hst2, p2, ho2⟩ := hs2 j R1 h1
  obtain ⟨out3, st3, hq3, _, hs3, _⟩ :=
    query_step_spec sha256_hash hash_pair rrsets2 query_type st2 stack
  obtain ⟨hst3, p3, ho3⟩ := hs3 j R2 h2
  have e1 : st1.prev_roots j = R1 := by rw [hst1]; simp
  have e2 : st2.prev_roots j = R1 := by rw [hst2]; simp
  have e3 : st3.prev_roots j = R2 := by rw [hst3]; simp
  refine ⟨p1, st1, p2, st2, p3, st3, ?_, e1, ?_, e2, ?_, e3⟩
  · rw [hq1, ho1]
    rfl
  · rw [hq2, ho2, e1]
  · rw [hq3, ho3, e2]

/-- Witness of C13: the query `AAAA` asked twice on the record sets of `main`
and once more after the third record of `AAAA` has been replaced. -/
theorem chaining_trace_witness :
    query_root Sym.leaf Sym.pair rrsets "AAAA" = some (1, root_aaaa) ∧
    query_root Sym.leaf Sym.pair rrsets_changed "AAAA" = some (1, root_aaaa_changed) ∧
    ∃ p1 st1 p2 st2 p3 st3,
      query_rrset Sym.leaf Sym.pair rrsets "AAAA" (initial_state Sym.zero) (fun _ => Ptr.null) =
        some (QueryOutput.answer root_aaaa (Sym.pair root_aaaa Sym.zero) root_aaaa p1, st1) ∧
      st1.prev_roots 1 = root_aaaa ∧
      query_rrset Sym.leaf Sym.pair rrsets "AAAA" st1 (fun _ => Ptr.null) =
        some (QueryOutput.answer root_aaaa (Sym.pair root_aaaa root_aaaa) root_aaaa p2, st2) ∧
      st2.prev_roots 1 = root_aaaa ∧
      query_rrset Sym.leaf Sym.pair rrsets_changed "AAAA" st2 (fun _ => Ptr.null) =
        some (QueryOutput.answer root_aaaa_changed (Sym.pair root_aaaa_changed root_aaaa)
          root_aaaa_changed p3, st3) ∧
      st3.prev_roots 1 = root_aaaa_changed :=
  ⟨query_root_aaaa, query_root_aaaa_changed,
    chaining_trace Sym.leaf Sym.pair Sym.zero rrsets rrsets_changed "AAAA" (fun _ => Ptr.null) 1
      root_aaaa root_aaaa_changed query_root_aaaa query_root_aaaa_changed⟩

/-- C14 (epoch-state invariant): from the zeroed `prev_roots` table, after any
finite sequence of queries, successful or failing, for any types, the entry of
a record set is the zero value when no query of the sequence has succeeded for
it, and is otherwise the root computed by the most recent query that succeeded
for it; the first query that succeeds for a record set is chained against the
zero value; a query that does not succeed reports a failure. -/
theorem epoch_state_invariant {D : Type} (sha256_hash : String → D) (hash_pair : D → D → D)
    (zero32 : D) (queries : List (List RRSet × String)) (stack : Nat → Ptr) :
    ∃ outs st,
      run_queries sha256_hash hash_pair queries (initial_state zero32) stack = some (outs, st) ∧
      outs.length = queries.length ∧
      (∀ j, (∀ k R, ¬ succeeds_at sha256_hash hash_pair queries k j R) →
        st.prev_roots j = zero32) ∧
      (∀ j k R, succeeds_at sha256_hash hash_pair queries k j R →
        (∀ k2 R2, k < k2 → ¬ succeeds_at sha256_hash hash_pair queries k2 j R2) →
        st.prev_roots j = R) ∧
      (∀ j k R, succeeds_at sha256_hash hash_pair queries k j R →
        (∀ k1 R1, k1 < k → ¬ succeeds_at sha256_hash hash_pair queries k1 j R1) →
        ∃ proof, outs[k]? = some (QueryOutput.answer R (hash_pair R zero32) R proof)) ∧
      (∀ (k : Nat) (rrsets : List RRSet) (query_type : String),
        queries[k]? = some (rrsets, query_type) →
        query_root sha256_hash hash_pair rrsets query_type = none →
        outs[k]? = some QueryOutput.not_found ∨ outs[k]? = some QueryOutput.empty_rrset) := by
  obtain ⟨outs, st, hrun, hlen, hA, hB, hC, hD⟩ :=
    run_queries_spec sha256_hash hash_pair stack queries (initial_state zero32)
  exact ⟨outs, st, hrun, hlen, hA, hB, hC, hD⟩

theorem query_root_mx : query_root Sym.leaf Sym.pair rrsets "MX" = none := by
  simp [query_root, find_rrset, rrsets]

/-- Witness of C14: the queries `MX`, `AAAA`, and `AAAA` again after the third
record of `AAAA` has been replaced, on the record sets of `main`. -/
theorem epoch_state_invariant_witness :
    ∃ outs st,
      run_queries Sym.leaf Sym.pair
        [(rrsets, "MX"), (rrsets, "AAAA"), (rrsets_changed, "AAAA")]
        (initial_state Sym.zero) (fun _ => Ptr.null) = some (outs, st) ∧
      st.prev_roots 0 = Sym.zero ∧ st.prev_roots 1 = root_aaaa_changed ∧
      (∃ proof, outs[1]? =
        some (QueryOutput.answer root_aaaa (Sym.pair root_aaaa Sym.zero) root_aaaa proof)) ∧
      (outs[0]? = some QueryOutput.not_found ∨ outs[0]? = some QueryOutput.empty_rrset) := by
  obtain ⟨outs, st, hrun, _, hA, hB, hC, hD⟩ :=
    epoch_state_invariant Sym.leaf Sym.pair Sym.zero
      [(rrsets, "MX"), (rrsets, "AAAA"), (rrsets_changed, "AAAA")] (fun _ => Ptr.null)
  have hcases : ∀ k j R, succeeds_at Sym.leaf Sym.pair
      [(rrsets, "MX"), (rrsets, "AAAA"), (rrsets_changed, "AAAA")] k j R →
      (k = 1 ∧ j = 1 ∧ R = root_aaaa) ∨ (k = 2 ∧ j = 1 ∧ R = root_aaaa_changed) := by
    rintro k j R ⟨rr, q, hget, hroot⟩
    match k with
    | 0 =>
      simp only [List.getElem?_cons_zero, Option.some.injEq, Prod.mk.injEq] at hget
      rw [← hget.1, ← hget.2, query_root_mx] at hroot
      exact Option.noConfusion hroot
    | 1 =>
      simp only [List.getElem?_cons_succ, List.getElem?_cons_zero, Option.some.injEq,
        Prod.mk.injEq] at hget
      rw [← hget.1, ← hget.2, query_root_aaaa] at hroot
      have hp : (1, root_aaaa) = (j, R) := Option.some.inj hroot
      exact Or.inl ⟨rfl, (congrArg Prod.fst hp).symm, (congrArg Prod.snd hp).symm⟩
    | 2 =>
      simp only [List.getElem?_cons_succ, List.getElem?_cons_zero, Option.some.injEq,
        Prod.mk.injEq] at hget
      rw [← hget.1, ← hget.2, query_root_aaaa_changed] at hroot
      have hp : (1, root_aaaa_changed) = (j, R) := Option.some.inj hroot
      exact Or.inr ⟨rfl, (congrArg Prod.fst hp).symm, (congrArg Prod.snd hp).symm⟩
    | k + 3 =>
      simp at hget
  refine ⟨outs, st, hrun, ?_, ?_, ?_, ?_⟩
  · apply hA 0
    intro k R hk
    rcases hcases k 0 R hk with ⟨_, h0, _⟩ | ⟨_, h0, _⟩ <;> omega
  · apply hB 1 2 root_aaaa_changed ⟨rrsets_changed, "AAAA", rfl, query_root_aaaa_changed⟩
    intro k2 R2 hlt hk2
    rcases hcases k2 1 R2 hk2 with ⟨hk, _, _⟩ | ⟨hk, _, _⟩ <;> omega
  · apply hC 1 1 root_aaaa ⟨rrsets, "AAAA", rfl, query_root_aaaa⟩
    intro k1 R1 hlt hk1
    rcases hcases k1 1 R1 hk1 with ⟨hk, _, _⟩ | ⟨hk, _, _⟩ <;> omega
  · exact hD 0 rrsets "MX" rfl query_root_mx

/-- C15 (independence of identities): a query that resolves to the record set
at position `j` leaves the `prev_roots` entry of every other position
unchanged, and the signature it reports is determined by the records of that
record set and the entry `j` alone: any other query that resolves to a record
set with the same records, from a state whose entry for it holds the same
value, reports the same signature, whatever the other entries, the
`latest_root` buffer and the rest of the store hold. -/
theorem independence_of_identities {D : Type} (sha256_hash : String → D)
    (hash_pair : D → D → D) (rrsets : List RRSet) (query_type : String) (st : QueryState D)
    (stack : Nat → Ptr) (j : Nat) (rrset : RRSet)
    (hfind : find_rrset rrsets query_type 0 = some j) (hget : rrsets[j]? = some rrset) :
    ∃ out st1, query_rrset sha256_hash hash_pair rrsets query_type st stack = some (out, st1) ∧
      (∀ k, k ≠ j → st1.prev_roots k = st.prev_roots k) ∧
      ∀ (rrsets2 : List RRSet) (query_type2 : String) (st2 : QueryState D) (stack2 : Nat → Ptr)
        (j2 : Nat) (rrset2 : RRSet), find_rrset rrsets2 query_type2 0 = some j2 →
        rrsets2[j2]? = some rrset2 → rrset2.records = rrset.records →
        st2.prev_roots j2 = st.prev_roots j →
        ∃ out2 st3, query_rrset sha256_hash hash_pair rrsets2 query_type2 st2 stack2 =
            some (out2, st3) ∧
          out2.signature = out.signature := by
  by_cases hempty : rrset.records = []
  · have hbuild : build_merkle_tree_levels sha256_hash hash_pair rrset = some ⟨[], 0⟩ := by
      simp [build_merkle_tree_levels, RRSet.count, hempty]
    refine ⟨QueryOutput.empty_rrset, st, ?_, fun _ _ => rfl, ?_⟩
    · simp only [query_rrset, hfind, hget, Option.some_bind, hbuild, if_true]
    · intro rrsets2 query_type2 st2 stack2 j2 rrset2 hfind2 hget2 hrec _
      have hbuild2 : build_merkle_tree_levels sha256_hash hash_pair rrset2 = some ⟨[], 0⟩ := by
        rw [build_congr sha256_hash hash_pair rrset rrset2 hrec]
        exact hbuild
      refine ⟨QueryOutput.empty_rrset, st2, ?_, rfl⟩
      simp only [query_rrset, hfind2, hget2, Option.some_bind, hbuild2, if_true]
  · obtain ⟨tree, root, proof, hbuild, hlast, hq⟩ :=
      query_answer sha256_hash hash_pair rrsets query_type st stack j rrset hfind hget hempty
    refine ⟨_, _, hq, ?_, ?_⟩
    · intro k hk
      simp [Function.update, hk]
    · intro rrsets2 query_type2 st2 stack2 j2 rrset2 hfind2 hget2 hrec hentry
      obtain ⟨tree2, root2, proof2, hbuild2, hlast2, hq2⟩ :=
        query_answer sha256_hash hash_pair rrsets2 query_type2 st2 stack2 j2 rrset2 hfind2
          hget2 (by rw [hrec]; exact hempty)
      rw [build_congr sha256_hash hash_pair rrset rrset2 hrec, hbuild] at hbuild2
      have htree : tree = tree2 := Option.some.inj hbuild2
      subst htree
      rw [hlast] at hlast2
      have hroot : root = root2 := by simpa using hlast2
      subst hroot
      refine ⟨_, _, hq2, ?_⟩
      simp only [QueryOutput.signature, hentry]

/-- Witness of C15: the query `AAAA` on the record sets of `main`. -/
theorem independence_of_identities_witness :
    find_rrset rrsets "AAAA" 0 = some 1 ∧ rrsets[1]? = some rrset_aaaa ∧
    ∃ out st1, query_rrset Sym.leaf Sym.pair rrsets "AAAA" (initial_state Sym.zero)
        (fun _ => Ptr.null) = some (out, st1) ∧
      (∀ k, k ≠ 1 → st1.prev_roots k = (initial_state Sym.zero).prev_roots k) ∧
      ∀ (rrsets2 : List RRSet) (query_type2 : String) (st2 : QueryState Sym)
        (stack2 : Nat → Ptr) (j2 : Nat) (rrset2 : RRSet),
        find_rrset rrsets2 query_type2 0 = some j2 →
        rrsets2[j2]? = some rrset2 → rrset2.records = rrset_aaaa.records →
        st2.prev_roots j2 = (initial_state Sym.zero).prev_roots 1 →
        ∃ out2 st3, query_rrset Sym.leaf Sym.pair rrsets2 query_type2 st2 stack2 =
            some (out2, st3) ∧
          out2.signature = out.signature :=
  ⟨by simp [find_rrset, rrsets], rfl,
    independence_of_identities Sym.leaf Sym.pair rrsets "AAAA" (initial_state Sym.zero)
      (fun _ => Ptr.null) 1 rrset_aaaa (by simp [find_rrset, rrsets]) rfl⟩

end RDMTL
